import Mathlib

/-!
Verification of the kharkiv-metro routing core against its specification.

The definitions below are a shallow embedding of the Python sources:

* `kharkiv_metro_core/database.py`  — the SQLite timetable store, modelled as a
  list of rows with SQL `WHERE`/`ORDER BY`/`LIMIT` semantics spelled out;
* `kharkiv_metro_core/graph.py`     — the metro graph and Dijkstra;
* `kharkiv_metro_core/router.py`    — the schedule-aware trip builder;
* `kharkiv_metro_bot/storage.py`    — the persisted FSM session store;
* `kharkiv_metro_bot/handlers/route.py` — the route-conversation handlers.

Timestamps (`datetime`) are modelled as integer seconds on a timeline carrying
a single fixed timezone; clock times (`datetime.time`) as seconds of day, so
Python's lexicographic `time` comparison is plain `≤` on seconds.
-/

/-- Day type stored in the `schedules` table (`weekday` / `weekend`). -/
inductive DayT
  | weekday
  | weekend
deriving DecidableEq

/-- One row of the `schedules` table: the columns selected by the queries. -/
structure SRow where
  station_id : String
  direction_station_id : String
  day_type : DayT
  hour : Nat
  minutes : Nat
deriving DecidableEq

/-- The timetable store contents (the `schedules` table). -/
abbrev MetroDB := List SRow

/-- Ascending lexicographic order on `(hour, minutes)` pairs: the order used by
`ORDER BY hour, minutes`. -/
def lexLE (a b : Nat × Nat) : Prop :=
  a.1 < b.1 ∨ (a.1 = b.1 ∧ a.2 ≤ b.2)

instance : DecidableRel lexLE := fun a b => by unfold lexLE; infer_instance

instance : IsTotal (Nat × Nat) lexLE := ⟨by intro a b; unfold lexLE; omega⟩

instance : IsTrans (Nat × Nat) lexLE := ⟨by intro a b c; unfold lexLE; omega⟩

instance : IsAntisymm (Nat × Nat) lexLE :=
  ⟨by intro a b h h'; unfold lexLE at h h'; obtain ⟨x, y⟩ := a; obtain ⟨z, w⟩ := b; simp_all; omega⟩

/-- Descending lexicographic order on `(hour, minutes)`: `ORDER BY hour DESC, minutes DESC`. -/
def lexGE (a b : Nat × Nat) : Prop := lexLE b a

instance : DecidableRel lexGE := fun a b => by unfold lexGE; infer_instance

instance : IsTotal (Nat × Nat) lexGE :=
  ⟨by intro a b; unfold lexGE; exact (IsTotal.total (r := lexLE) a b).symm⟩

instance : IsTrans (Nat × Nat) lexGE :=
  ⟨by intro a b c h h'; exact IsTrans.trans (r := lexLE) c b a h' h⟩

instance : IsAntisymm (Nat × Nat) lexGE :=
  ⟨by intro a b h h'; exact IsAntisymm.antisymm (r := lexLE) a b h' h⟩

/-- Row filter of every schedule query:
`WHERE station_id = ? AND direction_station_id = ? AND day_type = ?`. -/
def rowMatches (s dir : String) (day : DayT) (r : SRow) : Bool :=
  decide (r.station_id = s ∧ r.direction_station_id = dir ∧ r.day_type = day)

/-- The `SELECT hour, minutes` projection of a row. -/
def rowEntry (r : SRow) : Nat × Nat := (r.hour, r.minutes)

/-- `MetroDatabase.get_station_schedule`: the matching entries ordered by
`(hour, minutes)` ascending, `None` when there are no rows. -/
def get_station_schedule (db : MetroDB) (s dir : String) (day : DayT) :
    Option (List (Nat × Nat)) :=
  let entries := List.insertionSort lexLE ((db.filter (rowMatches s dir day)).map rowEntry)
  if entries.isEmpty then none else some entries

/-- `MetroDatabase.get_next_departures`: rows of the key with
`hour > h OR (hour = h AND minutes >= m)`, ordered by `(hour, minutes)`
ascending, capped at `limit`. -/
def get_next_departures (db : MetroDB) (s dir : String) (day : DayT)
    (h m : Nat) (limit : Nat) : List (Nat × Nat) :=
  (List.insertionSort lexLE
    ((db.filter (fun r =>
        rowMatches s dir day r && decide (r.hour > h ∨ (r.hour = h ∧ r.minutes ≥ m)))).map
      rowEntry)).take limit

/-- Modelled from the spec: `MetroDatabase.get_previous_departures` is absent from
this revision of `database.py` although `router.py` calls it; per spec §4.B it is
the primitive symmetric to `get_next_departures`: entries with `(hour, minute)`
lexicographically ≤ `before_time`, in descending order, capped at `limit`. -/
def get_previous_departures (db : MetroDB) (s dir : String) (day : DayT)
    (h m : Nat) (limit : Nat) : List (Nat × Nat) :=
  (List.insertionSort lexGE
    ((db.filter (fun r =>
        rowMatches s dir day r && decide (r.hour < h ∨ (r.hour = h ∧ r.minutes ≤ m)))).map
      rowEntry)).take limit

/-- `MetroRouter._get_previous_departures`: a memo keyed on the full argument
tuple in front of the store primitive; over a fixed store the memo is the
identity, so the cached lookup equals the store call. -/
def router_get_previous_departures (db : MetroDB) (s dir : String) (day : DayT)
    (h m : Nat) (limit : Nat) : List (Nat × Nat) :=
  get_previous_departures db s dir day h m limit

/-- `MetroRouter._get_next_departures`: same memo pattern over `get_next_departures`. -/
def router_get_next_departures (db : MetroDB) (s dir : String) (day : DayT)
    (h m : Nat) (limit : Nat) : List (Nat × Nat) :=
  get_next_departures db s dir day h m limit

/-- `MetroDatabase.get_last_departure_time`: `MAX(hour)` for the day type, and
`MAX(minutes)` among the rows of that maximal hour. -/
def get_last_departure_time (db : MetroDB) (day : DayT) : Option (Nat × Nat) :=
  match (db.filter (fun r => decide (r.day_type = day))).map (fun r => r.hour) with
  | [] => none
  | h0 :: hs =>
    match ((db.filter (fun r => decide (r.day_type = day))).filter
        (fun r => decide (r.hour = hs.foldl Nat.max h0))).map (fun r => r.minutes) with
    | [] => none
    | m0 :: ms => some (hs.foldl Nat.max h0, ms.foldl Nat.max m0)

/-- `MetroDatabase.get_first_departure_time`: `MIN(hour)` for the day type, and
`MIN(minutes)` among the rows of that minimal hour. -/
def get_first_departure_time (db : MetroDB) (day : DayT) : Option (Nat × Nat) :=
  match (db.filter (fun r => decide (r.day_type = day))).map (fun r => r.hour) with
  | [] => none
  | h0 :: hs =>
    match ((db.filter (fun r => decide (r.day_type = day))).filter
        (fun r => decide (r.hour = hs.foldl Nat.min h0))).map (fun r => r.minutes) with
    | [] => none
    | m0 :: ms => some (hs.foldl Nat.min h0, ms.foldl Nat.min m0)

/-- Seconds of day of a clock time given as `(hour, minute)`. -/
def hmToSec (e : Nat × Nat) : Nat := e.1 * 3600 + e.2 * 60

/-- `MetroDatabase.is_metro_open`: open iff the checked clock time lies between
the early-planning time (first departure minus `early` minutes, computed on the
wall clock only, so it may wrap below midnight) and the last departure.  With no
schedule rows for the day type it reports open.  `checkSec` is the checked
time-of-day in seconds, so Python's lexicographic `datetime.time` comparison is
numeric comparison here. -/
def is_metro_open (db : MetroDB) (day : DayT) (checkSec : Nat) (early : Nat := 90) :
    Bool × Option (Nat × Nat) × Option (Nat × Nat) :=
  let last := get_last_departure_time db day
  let first := get_first_departure_time db day
  match last, first with
  | some l, some f =>
    let eMin : Int := ((f.1 * 60 + f.2 : Int) - early) % 1440
    (decide ((eMin * 60 ≤ checkSec) ∧ checkSec ≤ hmToSec l), some l, some f)
  | _, _ => (true, none, none)

/-- Truth value of `is_metro_open` alone. -/
def openAt (db : MetroDB) (day : DayT) (checkSec : Nat) : Bool :=
  (is_metro_open db day checkSec).1

/-- The civil-date start (midnight) of a timestamp: `t.date()` as a timestamp.
Timestamps are integer seconds in the single configured timezone. -/
def dayStart (t : Int) : Int := t - t % 86400

/-- `datetime.combine(t.date(), time(e.hour, e.minutes), t.tzinfo)`. -/
def combineDT (t : Int) (e : Nat × Nat) : Int := dayStart t + (e.1 * 3600 + e.2 * 60)

/-- Hour component of `t.time()`. -/
def hourOf (t : Int) : Nat := ((t % 86400) / 3600).toNat

/-- Minute component of `t.time()`. -/
def minuteOf (t : Int) : Nat := ((t % 86400) % 3600 / 60).toNat

/-- Seconds-of-day of `t.time()`; Python's lexicographic comparison of
`datetime.time` values equals numeric comparison of this quantity. -/
def secOfDay (t : Int) : Nat := (t % 86400).toNat

/-- `MetroRouter._calculate_arrival_time`: the next scheduled time at `station`
toward `dir` at or after `after`'s (hour, minute), rolled forward one day when
the combined timestamp lies before `after`; `none` when the lookup is empty. -/
def calc_arrival_time (db : MetroDB) (station dir : String) (day : DayT)
    (after : Int) : Option Int :=
  match router_get_next_departures db station dir day (hourOf after) (minuteOf after) 1 with
  | [] => none
  | e :: _ =>
    let arr := combineDT after e
    some (if arr < after then arr + 86400 else arr)

/-- Candidate scan of `MetroRouter._find_departure_before`: try each previous
departure in order, roll it back a day when it lies after the target, and return
the first whose implied arrival is no later than the target. -/
def find_departure_before_go (db : MetroDB) (toId dir : String) (day : DayT)
    (arrivalBy : Int) : List (Nat × Nat) → Option Int × Option Int
  | [] => (none, none)
  | e :: rest =>
    let depRaw := combineDT arrivalBy e
    let dep := if depRaw > arrivalBy then depRaw - 86400 else depRaw
    match calc_arrival_time db toId dir day dep with
    | some arr =>
      if arr ≤ arrivalBy then (some dep, some arr)
      else find_departure_before_go db toId dir day arrivalBy rest
    | none => find_departure_before_go db toId dir day arrivalBy rest

/-- `MetroRouter._find_departure_before`: candidates come from the
previous-departures primitive (default window 5). -/
def find_departure_before (db : MetroDB) (fromId toId dir : String) (day : DayT)
    (arrivalBy : Int) (limit : Nat := 5) : Option Int × Option Int :=
  find_departure_before_go db toId dir day arrivalBy
    (router_get_previous_departures db fromId dir day (hourOf arrivalBy) (minuteOf arrivalBy) limit)

/-- Key of the bot's `fsm_state` table: `(chat_id, user_id, destiny)`. -/
structure StorageKey where
  chat_id : Int
  user_id : Int
  destiny : String
deriving DecidableEq

/-- One row of `fsm_state`: FSM state name, JSON-serialized data text, and the
update timestamp. -/
structure FsmRow where
  state : Option String
  data : String
  updated_at : Int
deriving DecidableEq

/-- The `fsm_state` table: at most one row per primary key, read as a map. -/
def FsmTable := StorageKey → Option FsmRow

/-- `SqliteStorage.set_state`: an upsert whose conflict action updates only
`state` and `updated_at`; a fresh insert stores the JSON empty object as data. -/
def set_state (tbl : FsmTable) (k : StorageKey) (st : Option String) (now : Int) :
    FsmTable :=
  fun q =>
    if q = k then
      match tbl k with
      | some r => some ⟨st, r.data, now⟩
      | none => some ⟨st, "\x7b\x7d", now⟩
    else tbl q

/-- `SqliteStorage.set_data`: an upsert whose conflict action updates only
`data` and `updated_at`; a fresh insert stores a NULL state. -/
def set_data (tbl : FsmTable) (k : StorageKey) (payload : String) (now : Int) :
    FsmTable :=
  fun q =>
    if q = k then
      match tbl k with
      | some r => some ⟨r.state, payload, now⟩
      | none => some ⟨none, payload, now⟩
    else tbl q

/-- `SqliteStorage.get_state`. -/
def get_state (tbl : FsmTable) (k : StorageKey) : Option String :=
  match tbl k with
  | some r => r.state
  | none => none

/-- Python `str.strip()` whitespace set (the characters relevant here). -/
def pyWhitespace (c : Char) : Bool :=
  decide (c = ' ' ∨ c = '\t' ∨ c = '\n' ∨ c = '\r')

/-- Python `str.strip()`. -/
def py_strip (s : String) : String :=
  String.mk (((s.toList.dropWhile pyWhitespace).reverse.dropWhile pyWhitespace).reverse)

/-- Python `str.lower()` (character-wise lowering). -/
def py_lower (s : String) : String := String.mk (s.toList.map Char.toLower)

/-- Python `needle in hay` on strings: substring containment. -/
def py_in (needle hay : String) : Bool := decide (needle.toList <:+: hay.toList)

/-- FSM states of the route conversation (`RouteStates`). -/
inductive RouteSt
  | waiting_for_from_line
  | waiting_for_from_station
  | waiting_for_to_line
  | waiting_for_to_station
  | waiting_for_time_choice
  | waiting_for_day_type
  | waiting_for_custom_time
deriving DecidableEq

/-- The per-chat FSM data fields the station steps read and write. -/
structure RouteData where
  valid_stations : List String
  valid_lines : List String
  from_station : Option String
  to_station : Option String
deriving DecidableEq

/-- A route-flow session: FSM state plus collected data. -/
structure RouteSession where
  state : Option RouteSt
  data : RouteData
deriving DecidableEq

/-- Whether a handler re-sent the same prompt (invalid choice) or advanced. -/
inductive ReplyKind
  | reprompt
  | advance
deriving DecidableEq

/-- `process_from_station`: rejects text outside the stored `valid_stations`
(session unchanged, same prompt re-sent); otherwise records `from_station` and
moves to the to-line step. -/
def process_from_station (sess : RouteSession) (text : String) :
    RouteSession × ReplyKind :=
  if text ∈ sess.data.valid_stations then
    (⟨some RouteSt.waiting_for_to_line,
      { sess.data with from_station := some text }⟩, ReplyKind.advance)
  else (sess, ReplyKind.reprompt)

/-- `process_to_station`: records the incoming text as `to_station` and moves to
the time-choice step without consulting `valid_stations`. -/
def process_to_station (sess : RouteSession) (text : String) :
    RouteSession × ReplyKind :=
  (⟨some RouteSt.waiting_for_time_choice,
    { sess.data with to_station := some text }⟩, ReplyKind.advance)

/-- Outcome of the custom-time handler: rejected leaves state and data
unchanged (an error message is sent); accepted carries the parsed clock time. -/
inductive TimeInput
  | rejected
  | accepted (hour minute : Nat)
deriving DecidableEq

/-- Numeric value of an ASCII digit character. -/
def digitVal (c : Char) : Nat := c.toNat - 48

/-- Pattern match of `^\d{1,2}:\d{2}$` with the parsed (hour, minute) values. -/
def parse_custom_time (s : String) : Option (Nat × Nat) :=
  match s.toList with
  | [d1, ':', d2, d3] =>
    if d1.isDigit && d2.isDigit && d3.isDigit then
      some (digitVal d1, digitVal d2 * 10 + digitVal d3)
    else none
  | [d1, d2, ':', d3, d4] =>
    if d1.isDigit && d2.isDigit && d3.isDigit && d4.isDigit then
      some (digitVal d1 * 10 + digitVal d2, digitVal d3 * 10 + digitVal d4)
    else none
  | _ => none

/-- `process_custom_time`: strips the message text, requires the
`^\d{1,2}:\d{2}$` shape with hour in [0,23] and minute in [0,59]; both the
format failure and the range failure answer with an error and leave the session
unchanged. -/
def process_custom_time (text : String) : TimeInput :=
  match parse_custom_time (py_strip text) with
  | none => TimeInput.rejected
  | some (h, m) =>
    if h ≤ 23 ∧ m ≤ 59 then TimeInput.accepted h m else TimeInput.rejected

/-- Metro lines (the `Line` enum). -/
inductive MLine
  | kholodnohirsko_zavodska
  | saltivska
  | oleksiivska
deriving DecidableEq

/-- `Station`: the fields the graph and router consume. -/
structure Station where
  id : String
  name_ua : String
  name_en : String
  line : MLine
  order : Nat
  transfer_to : Option String
deriving DecidableEq

/-- An edge of `MetroGraph` (the `Edge` dataclass); the source's float weights
are the integers 2.0 and 3.0, modelled as naturals. -/
structure GEdge where
  to_station_id : String
  weight : Nat
  is_transfer : Bool
deriving DecidableEq

/-- The adjacency structure of `MetroGraph`: station id to outgoing edge list,
in station-dict insertion order. -/
abbrev MGraph := List (String × List GEdge)

/-- `MetroGraph._add_edge`: appends the edge to the source node when the source
id is a known node, otherwise does nothing. -/
def add_edge : MGraph → String → String → Nat → Bool → MGraph
  | [], _, _, _, _ => []
  | p :: rest, fromId, toId, w, isT =>
    (if p.1 = fromId then (p.1, p.2 ++ [⟨toId, w, isT⟩]) else p) ::
      add_edge rest fromId toId w isT

/-- The stations of one line sorted by `order` (Python `list.sort` by key). -/
def stations_on_line (sts : List Station) (ln : MLine) : List Station :=
  List.insertionSort (fun a b => a.order ≤ b.order) (sts.filter (fun s => decide (s.line = ln)))

/-- Adjacency pass of `_build_graph`: both directions between consecutive
stations of a line, weight 2. -/
def add_line_edges (g : MGraph) : List Station → MGraph
  | a :: b :: rest =>
    add_line_edges (add_edge (add_edge g a.id b.id 2 false) b.id a.id 2 false) (b :: rest)
  | _ => g

/-- `MetroGraph._build_graph`: nodes for every station, adjacency edges per line
in the fixed line order, then one directed transfer edge (weight 3) per entry of
the transfers mapping. -/
def build_graph (sts : List Station) (transfers : List (String × String)) : MGraph :=
  let base : MGraph := sts.map (fun s => (s.id, ([] : List GEdge)))
  let withK := add_line_edges base (stations_on_line sts MLine.kholodnohirsko_zavodska)
  let withS := add_line_edges withK (stations_on_line sts MLine.saltivska)
  let withO := add_line_edges withS (stations_on_line sts MLine.oleksiivska)
  transfers.foldl (fun g p => add_edge g p.1 p.2 3 true) withO

/-- Outgoing edges of a node: first entry with the id, empty for an unknown id
(dict lookup over the node map). -/
def edgesOf : MGraph → String → List GEdge
  | [], _ => []
  | p :: rest, a => if p.1 = a then p.2 else edgesOf rest a

/-- Node ids of the graph. -/
def nodeIds (g : MGraph) : List String := g.map Prod.fst

/-- Bot/CLI language selector. -/
inductive Lang
  | ua
  | en
deriving DecidableEq

/-- The per-language display name of a station. -/
def station_name (st : Station) (lang : Lang) : String :=
  match lang with
  | Lang.ua => st.name_ua
  | Lang.en => st.name_en

/-- Normalized name used by `_build_name_index`: apostrophes and guillemets
removed, then stripped. -/
def norm_name (s : String) : String :=
  py_strip (((s.replace "'" "").replace "«" "").replace "»" "")

/-- Dict insert for the name index (later writes win). -/
def index_insert (idx : String → Option Station) (key : String) (st : Station) :
    String → Option Station :=
  fun q => if q = key then some st else idx q

/-- Per-language pass of `_build_name_index`: lower-cased names, plus the
normalized form when it is non-empty and differs. -/
def build_lang_index (sts : List Station) (lang : Lang) : String → Option Station :=
  sts.foldl (fun idx st =>
    let nm := py_lower (station_name st lang)
    let idx1 := index_insert idx nm st
    let nrm := norm_name nm
    if nrm ≠ "" ∧ nrm ≠ nm then index_insert idx1 nrm st else idx1)
    (fun _ => none)

/-- `_build_name_index` with the alias pass (aliases feed only the `ua` index;
each alias resolves against the index as built so far). -/
def build_name_index (sts : List Station) (aliases : List (String × String))
    (lang : Lang) : String → Option Station :=
  match lang with
  | Lang.en => build_lang_index sts Lang.en
  | Lang.ua =>
    aliases.foldl (fun idx p =>
      match idx (py_strip (py_lower p.2)) with
      | some st => index_insert idx (py_strip (py_lower p.1)) st
      | none => idx) (build_lang_index sts Lang.ua)

/-- `MetroGraph.find_station_by_name`: exact (indexed) lookup of the lower-cased
stripped query, then a first-match substring scan in station-dict order. -/
def find_station_by_name (sts : List Station) (aliases : List (String × String))
    (name : String) (lang : Lang) : Option Station :=
  match build_name_index sts aliases lang (py_strip (py_lower name)) with
  | some st => some st
  | none =>
    sts.find? (fun st =>
      py_in (py_strip (py_lower name)) (py_lower (station_name st lang)) ||
      py_in (py_lower (station_name st lang)) (py_strip (py_lower name)))

/-- Heap order on `(distance, station_id)` tuples: Python tuple comparison used
by `heapq`. -/
def entryLE (a b : Nat × String) : Bool :=
  decide (a.1 < b.1) || (decide (a.1 = b.1) && !decide (b.2 < a.2))

/-- The minimal entry of a non-empty collection under `entryLE` (the value
`heappop` returns). -/
def minEntry (e : Nat × String) (es : List (Nat × String)) : Nat × String :=
  es.foldl (fun m x => if entryLE m x then m else x) e

/-- Pop of the binary heap, modelled on the entry multiset: remove and return
the minimal `(distance, id)` tuple. -/
def popMin : List (Nat × String) → Option ((Nat × String) × List (Nat × String))
  | [] => none
  | e :: es => some (minEntry e es, (e :: es).erase (minEntry e es))

/-- Total number of outgoing edges of the graph (bounds the heap growth). -/
def edgeTotal (g : MGraph) : Nat := (g.map (fun p => p.2.length)).sum

/-- Relaxation pass over the popped node's edge list: skip visited neighbors,
update distance/previous and push a heap entry when the new distance improves
(an absent distance is infinity). -/
def relax_edges : List GEdge → Nat → String → List String →
    (String → Option Nat) → (String → Option String) → List (Nat × String) →
    ((String → Option Nat) × (String → Option String) × List (Nat × String))
  | [], _, _, _, dist, prev, pq => (dist, prev, pq)
  | e :: es, d, u, visited, dist, prev, pq =>
    if e.to_station_id ∈ visited then relax_edges es d u visited dist prev pq
    else
      match dist e.to_station_id with
      | none =>
        relax_edges es d u visited
          (fun v => if v = e.to_station_id then some (d + e.weight) else dist v)
          (fun v => if v = e.to_station_id then some u else prev v)
          ((d + e.weight, e.to_station_id) :: pq)
      | some dv =>
        if d + e.weight < dv then
          relax_edges es d u visited
            (fun v => if v = e.to_station_id then some (d + e.weight) else dist v)
            (fun v => if v = e.to_station_id then some u else prev v)
            ((d + e.weight, e.to_station_id) :: pq)
        else relax_edges es d u visited dist prev pq

/-- The Dijkstra loop of `find_shortest_path`: pop the minimal entry, skip it if
already visited, stop at the target, otherwise mark visited and relax.  The
fuel argument makes the recursion structural; the caller passes enough fuel
that it never runs out (each iteration pops one entry, and at most
`edgeTotal` entries are pushed per visited node). -/
def dijkstra_loop (g : MGraph) (endId : String) :
    Nat → (String → Option Nat) → (String → Option String) → List String →
    List (Nat × String) → ((String → Option Nat) × (String → Option String))
  | 0, dist, prev, _, _ => (dist, prev)
  | fuel + 1, dist, prev, visited, pq =>
    match popMin pq with
    | none => (dist, prev)
    | some ((d, u), rest) =>
      if u ∈ visited then dijkstra_loop g endId fuel dist prev visited rest
      else if u = endId then (dist, prev)
      else
        let s := relax_edges (edgesOf g u) d u (u :: visited) dist prev rest
        dijkstra_loop g endId fuel s.1 s.2.1 (u :: visited) s.2.2

/-- Reconstruction of the vertex list by following `previous` pointers from the
target (the source returns it reversed).  With strictly positive weights the
chain shortens the distance each step, so fuel `dist[end]` suffices exactly as
the unbounded Python loop does. -/
def prev_chain (prev : String → Option String) : Nat → String → List String
  | 0, v => [v]
  | fuel + 1, v =>
    v :: (match prev v with
          | none => []
          | some u => prev_chain prev fuel u)

/-- `MetroGraph.find_shortest_path`: Dijkstra from `startId`; `none` for
unknown endpoints or an unreachable target, otherwise the reconstructed path
and its total weight. -/
def find_shortest_path (g : MGraph) (startId endId : String) :
    Option (List String × Nat) :=
  if startId ∈ nodeIds g ∧ endId ∈ nodeIds g then
    match (dijkstra_loop g endId ((nodeIds g).length * (edgeTotal g + 1) + 2)
        (fun v => if v = startId then some 0 else none) (fun _ => none) []
        [(0, startId)]) with
    | (dist, prev) =>
      match dist endId with
      | none => none
      | some d => some ((prev_chain prev d endId).reverse, d)
  else none

/-- A path in the graph given by its vertex list, together with its total
weight: a single graph node, or an edge followed by a path. -/
inductive PathCost (g : MGraph) : String → String → List String → Nat → Prop
  | single (v : String) (hv : v ∈ nodeIds g) : PathCost g v v [v] 0
  | step (u b : String) (vs : List String) (c : Nat) (e : GEdge)
      (he : e ∈ edgesOf g u) (tail : PathCost g e.to_station_id b vs c) :
      PathCost g u b (u :: vs) (e.weight + c)

/-- Every edge target is a node.  This holds for the bundled network; on a
graph violating it the Python code would raise `KeyError`, while the embedding
treats the missing distance entry as infinity. -/
def ClosedGraph (g : MGraph) : Prop :=
  ∀ u : String, ∀ e ∈ edgesOf g u, e.to_station_id ∈ nodeIds g

/-- Strictly positive edge weights (the source uses 2 and 3). -/
def PositiveW (g : MGraph) : Prop := ∀ u : String, ∀ e ∈ edgesOf g u, 1 ≤ e.weight

/-- `d` is the least total weight of any path from `a` to `b`, and attained. -/
def IsShortestW (g : MGraph) (a b : String) (d : Nat) : Prop :=
  (∃ vs, PathCost g a b vs d) ∧ ∀ vs c, PathCost g a b vs c → d ≤ c

/-- Loop invariant of the Dijkstra embedding.  Distances are sound (attained by
a path), visited nodes carry shortest distances, every unvisited node with a
distance has a matching heap entry, heap entries dominate the recorded
distance, edges out of visited nodes are relaxed, and `previous` links record a
relaxation step from a visited node. -/
structure DijkInv (g : MGraph) (startId : String) (dist : String → Option Nat)
    (prev : String → Option String) (visited : List String)
    (pq : List (Nat × String)) : Prop where
  dist_start : dist startId = some 0
  prev_start : prev startId = none
  dist_sound : ∀ v d, dist v = some d → ∃ vs, PathCost g startId v vs d
  visited_short : ∀ u ∈ visited, ∃ d, dist u = some d ∧ IsShortestW g startId u d
  pq_dist : ∀ d v, (d, v) ∈ pq → ∃ dv, dist v = some dv ∧ dv ≤ d
  unvisited_pq : ∀ v, v ∉ visited → ∀ d, dist v = some d → (d, v) ∈ pq
  relaxed : ∀ u ∈ visited, ∀ e ∈ edgesOf g u, ∃ du dv, dist u = some du ∧
    dist e.to_station_id = some dv ∧ dv ≤ du + e.weight
  prev_link : ∀ v u, prev v = some u → u ∈ visited ∧ ∃ e ∈ edgesOf g u,
    e.to_station_id = v ∧ ∃ du dv, dist u = some du ∧ dist v = some dv ∧
      dv = du + e.weight
  prev_some : ∀ v d, dist v = some d → v ≠ startId → ∃ u, prev v = some u

/-- What holds of the `(distances, previous)` maps when the loop returns. -/
structure DijkPost (g : MGraph) (startId endId : String)
    (dist : String → Option Nat) (prev : String → Option String) : Prop where
  dist_start : dist startId = some 0
  dist_sound : ∀ v d, dist v = some d → ∃ vs, PathCost g startId v vs d
  prev_link : ∀ v u, prev v = some u → ∃ e ∈ edgesOf g u,
    e.to_station_id = v ∧ ∃ du dv, dist u = some du ∧ dist v = some dv ∧
      dv = du + e.weight
  prev_some : ∀ v d, dist v = some d → v ≠ startId → ∃ u, prev v = some u
  end_short : ∀ d, dist endId = some d → IsShortestW g startId endId d
  end_unreach : dist endId = none → ∀ vs c, ¬PathCost g startId endId vs c

/-- Fuel measure of the loop: unvisited nodes weighted by the maximal push
count per visit, plus pending heap entries. -/
def workM (g : MGraph) (visited : List String) (pq : List (Nat × String)) : Nat :=
  ((nodeIds g).filter (fun v => decide (v ∉ visited))).length * (edgeTotal g + 1) +
    pq.length

/-- A small closed positive-weight network used to exercise the shortest-path
function on concrete inputs. -/
def gC6lit : MGraph :=
  [("a", [⟨"b", 2, false⟩]), ("b", [⟨"c", 3, true⟩]), ("c", [])]

/-- Errors `find_route` can surface: `MetroClosedError`, or Python's `KeyError`
when a path station id is missing from the stations dict. -/
inductive RtErr
  | metroClosed
  | keyErr
deriving DecidableEq

/-- The `RouteSegment` dataclass as the depart-at builder populates it: both
times are always set, so they are plain timestamps here. -/
structure RouteSegment where
  from_station : Station
  to_station : Station
  departure_time : Int
  arrival_time : Int
  is_transfer : Bool
  duration_minutes : Nat
deriving DecidableEq

/-- The `Route` dataclass. -/
structure Route where
  segments : List RouteSegment
  total_duration_minutes : Nat
  num_transfers : Nat
  departure_time : Option Int
  arrival_time : Option Int
deriving DecidableEq

/-- `MetroRouter._get_line_terminals` for one line: among the stations of the
line (in dict iteration order), the first station of minimal `order` and the
first of maximal `order`; `none` when the line has no stations. -/
def get_line_terminals (sts : List (String × Station)) (ln : MLine) :
    Option (String × String) :=
  let ls := sts.filter (fun p => decide (p.2.line = ln))
  match ls.map (fun p => p.2.order) with
  | [] => none
  | o0 :: os =>
    match ls.find? (fun p => decide (p.2.order = os.foldl Nat.min o0)),
        ls.find? (fun p => decide (p.2.order = os.foldl Nat.max o0)) with
    | some a, some b => some (a.1, b.1)
    | _, _ => none

/-- `MetroRouter._find_terminal_in_path_fast`: scan the consecutive run of
same-line stations from `start_idx`; if the run has length at least two,
return the last (resp. first) terminal of the line according to the travel
direction given by the station orders, defaulting to the starting station when
the line has no cached terminals; otherwise return the starting station.
A station id missing from the dict stops the run (Python raises `KeyError`
one call earlier in that case). -/
def find_terminal_in_path (stations : String → Option Station) (path : List String)
    (terminals : MLine → Option (String × String)) (start_idx : Nat) (ln : MLine) :
    String :=
  let run := ((path.drop start_idx).takeWhile (fun sid =>
      match stations sid with
      | some st => decide (st.line = ln)
      | none => false)).length
  let lastIdx := if run = 0 then start_idx else start_idx + run - 1
  if start_idx < lastIdx then
    let firstOrder := ((stations (path.getD start_idx "")).map Station.order).getD 0
    let lastOrder := ((stations (path.getD lastIdx "")).map Station.order).getD 0
    let tm := (terminals ln).getD (path.getD start_idx "", path.getD start_idx "")
    if firstOrder < lastOrder then tm.2 else tm.1
  else path.getD start_idx ""

/-- The boarding step of `_build_route_with_schedule`'s train branch: when the
line changes (or none is current), pick the direction terminal and jump to the
next scheduled departure at the boarding station, rolling forward a day when
the combined time lies before the current time; an empty lookup raises
`MetroClosedError`.  On an unchanged line the current time and direction are
kept. -/
def board (db : MetroDB) (stations : String → Option Station)
    (terminals : MLine → Option (String × String)) (day : DayT) (path : List String)
    (i : Nat) (current : Int) (curLine : Option MLine) (dir : Option String)
    (ln : MLine) : Except RtErr (Int × Option String) :=
  if curLine = some ln then Except.ok (current, dir)
  else
    match router_get_next_departures db (path.getD i "")
        (find_terminal_in_path stations path terminals i ln) day
        (hourOf current) (minuteOf current) 1 with
    | [] => Except.error RtErr.metroClosed
    | e :: _ =>
      let depRaw := combineDT current e
      Except.ok (if depRaw < current then depRaw + 86400 else depRaw,
        some (find_terminal_in_path stations path terminals i ln))

/-- The segment loop of `_build_route_with_schedule`: `k` counts the remaining
consecutive pairs of `path` from index `i` (the caller passes
`path.length - 1`).  A pair whose source station transfers to the target makes
a 3-minute transfer segment and resets the line; otherwise a train segment
boards (possibly waiting for the next departure), then takes the scheduled
arrival at the target when the direction is a non-empty string and the lookup
succeeds, falling back to a flat 2 minutes.  Returns the segments and the
transfer count. -/
def walk_segments (db : MetroDB) (stations : String → Option Station)
    (terminals : MLine → Option (String × String)) (day : DayT) (path : List String) :
    Nat → Nat → Int → Option MLine → Option String →
    Except RtErr (List RouteSegment × Nat)
  | 0, _, _, _, _ => Except.ok ([], 0)
  | k + 1, i, current, curLine, dir =>
    match stations (path.getD i ""), stations (path.getD (i + 1) "") with
    | some fromSt, some toSt =>
      if fromSt.transfer_to = some (path.getD (i + 1) "") then
        match walk_segments db stations terminals day path k (i + 1) (current + 180)
            none none with
        | Except.ok (segs, nt) =>
          Except.ok (⟨fromSt, toSt, current, current + 180, true, 3⟩ :: segs, nt + 1)
        | Except.error e => Except.error e
      else
        match board db stations terminals day path i current curLine dir fromSt.line with
        | Except.error e => Except.error e
        | Except.ok (cur2, dir2) =>
          match (if dir2.getD "" = "" then none
                 else calc_arrival_time db (path.getD (i + 1) "") (dir2.getD "") day cur2) with
          | some arr =>
            match walk_segments db stations terminals day path k (i + 1) arr
                (some fromSt.line) dir2 with
            | Except.ok (segs, nt) =>
              Except.ok (⟨fromSt, toSt, cur2, arr, false,
                (arr - cur2).toNat / 60⟩ :: segs, nt)
            | Except.error e => Except.error e
          | none =>
            match walk_segments db stations terminals day path k (i + 1) (cur2 + 120)
                (some fromSt.line) dir2 with
            | Except.ok (segs, nt) =>
              Except.ok (⟨fromSt, toSt, cur2, cur2 + 120, false, 2⟩ :: segs, nt)
            | Except.error e => Except.error e
    | _, _ => Except.error RtErr.keyErr

/-- `MetroRouter._build_route_with_schedule`: closed at the start time raises
`MetroClosedError`; otherwise the segments are walked and the totals computed
from the first departure and last arrival (segment times are always set, so
Python's truthiness test reduces to non-emptiness). -/
def build_route_with_schedule (db : MetroDB) (stations : String → Option Station)
    (terminals : MLine → Option (String × String)) (path : List String)
    (start : Int) (day : DayT) : Except RtErr Route :=
  if openAt db day (secOfDay start) = false then Except.error RtErr.metroClosed
  else
    match walk_segments db stations terminals day path (path.length - 1) 0 start
        none none with
    | Except.error e => Except.error e
    | Except.ok (segs, nt) =>
      match segs with
      | [] => Except.ok ⟨[], 0, nt, none, none⟩
      | s0 :: rest =>
        Except.ok ⟨s0 :: rest,
          (((s0 :: rest).getLastD s0).arrival_time - s0.departure_time).toNat / 60, nt,
          some s0.departure_time, some ((s0 :: rest).getLastD s0).arrival_time⟩

/-- `MetroRouter.find_route` for a depart-at query with an explicit day type:
no path returns `None` before any open-hours check; otherwise closed desired
departure raises, the route is built, and a built route whose final arrival
falls outside open hours raises. -/
def find_route (db : MetroDB) (stations : String → Option Station)
    (terminals : MLine → Option (String × String)) (g : MGraph)
    (fromId toId : String) (departure : Int) (day : DayT) :
    Except RtErr (Option Route) :=
  match find_shortest_path g fromId toId with
  | none => Except.ok none
  | some (path, _) =>
    if openAt db day (secOfDay departure) = false then Except.error RtErr.metroClosed
    else
      match build_route_with_schedule db stations terminals path departure day with
      | Except.error e => Except.error e
      | Except.ok route =>
        match route.arrival_time with
        | none => Except.ok (some route)
        | some arr =>
          if openAt db day (secOfDay arr) = false then Except.error RtErr.metroClosed
          else Except.ok (some route)

/-- Well-formed timing chain of a segment list: each segment departs no earlier
than the running time, carries at least `60 * duration_minutes` seconds between
its departure and arrival, and hands its arrival to the next segment. -/
def SegChain : Int → List RouteSegment → Prop
  | _, [] => True
  | cur, s :: rest => cur ≤ s.departure_time ∧
      60 * (s.duration_minutes : Int) ≤ s.arrival_time - s.departure_time ∧
      SegChain s.arrival_time rest

/-- Concrete three-station network (transfer a-b, then line b-c) exercising the
route builder: station a transfers to b, b and c are adjacent on one line. -/
def stA : Station := ⟨"a", "A", "A", MLine.kholodnohirsko_zavodska, 1, some "b"⟩

def stB : Station := ⟨"b", "B", "B", MLine.saltivska, 1, none⟩

def stC : Station := ⟨"c", "C", "C", MLine.saltivska, 2, none⟩

def stationsC2 : String → Option Station := fun sid =>
  if sid = "a" then some stA else if sid = "b" then some stB
  else if sid = "c" then some stC else none

def terminalsC2 : MLine → Option (String × String) := fun ln =>
  if ln = MLine.saltivska then some ("b", "c") else none

/-- Weekday timetable: the b-to-c train leaves b at 10:10 and reaches c at
10:12. -/
def dbC2 : MetroDB :=
  [⟨"b", "c", DayT.weekday, 10, 10⟩, ⟨"c", "c", DayT.weekday, 10, 12⟩]

/-- A one-row weekday timetable (single departure at 10:00), so the open
window is 08:30 to 10:00. -/
def dbC1 : MetroDB := [⟨"s", "d", DayT.weekday, 10, 0⟩]

/-- A stations dict defined on every id (all on one line, no transfers). -/
def stationsTot : String → Option Station :=
  fun sid => some ⟨sid, sid, sid, MLine.saltivska, 1, none⟩

theorem min_eq_or (a b : Nat) : Nat.min a b = a ∨ Nat.min a b = b := by
  rcases Nat.le_total a b with h | h
  · exact Or.inl (Nat.min_eq_left h)
  · exact Or.inr (Nat.min_eq_right h)

theorem max_eq_or (a b : Nat) : Nat.max a b = a ∨ Nat.max a b = b := by
  rcases Nat.le_total a b with h | h
  · exact Or.inr (Nat.max_eq_right h)
  · exact Or.inl (Nat.max_eq_left h)

theorem foldl_min_le (l : List Nat) : ∀ a : Nat, l.foldl Nat.min a ≤ a := by
  induction l with
  | nil => intro a; exact Nat.le_refl a
  | cons b t ih =>
    intro a
    exact Nat.le_trans (ih (Nat.min a b)) (Nat.min_le_left a b)

theorem le_foldl_max (l : List Nat) : ∀ a : Nat, a ≤ l.foldl Nat.max a := by
  induction l with
  | nil => intro a; exact Nat.le_refl a
  | cons b t ih =>
    intro a
    exact Nat.le_trans (Nat.le_max_left a b) (ih (Nat.max a b))

theorem foldl_min_le_of_mem (l : List Nat) :
    ∀ a x : Nat, x ∈ a :: l → l.foldl Nat.min a ≤ x := by
  induction l with
  | nil =>
    intro a x hx
    simp only [List.mem_singleton] at hx
    simp [hx]
  | cons b t ih =>
    intro a x hx
    rcases List.mem_cons.mp hx with h | h
    · subst h
      exact Nat.le_trans (foldl_min_le t (Nat.min x b)) (Nat.min_le_left x b)
    · rcases List.mem_cons.mp h with h2 | h2
      · subst h2
        exact Nat.le_trans (foldl_min_le t (Nat.min a x)) (Nat.min_le_right a x)
      · exact ih (Nat.min a b) x (List.mem_cons.mpr (Or.inr h2))

theorem le_foldl_max_of_mem (l : List Nat) :
    ∀ a x : Nat, x ∈ a :: l → x ≤ l.foldl Nat.max a := by
  induction l with
  | nil =>
    intro a x hx
    simp only [List.mem_singleton] at hx
    simp [hx]
  | cons b t ih =>
    intro a x hx
    rcases List.mem_cons.mp hx with h | h
    · subst h
      exact Nat.le_trans (Nat.le_max_left x b) (le_foldl_max t (Nat.max x b))
    · rcases List.mem_cons.mp h with h2 | h2
      · subst h2
        exact Nat.le_trans (Nat.le_max_right a x) (le_foldl_max t (Nat.max a x))
      · exact ih (Nat.max a b) x (List.mem_cons.mpr (Or.inr h2))

theorem foldl_min_mem (l : List Nat) : ∀ a : Nat, l.foldl Nat.min a ∈ a :: l := by
  induction l with
  | nil => intro a; simp
  | cons b t ih =>
    intro a
    rw [List.foldl_cons]
    rcases List.mem_cons.mp (ih (Nat.min a b)) with h1 | h1
    · rw [h1]
      rcases min_eq_or a b with h2 | h2 <;> rw [h2]
      · exact List.mem_cons_self a (b :: t)
      · exact List.mem_cons.mpr (Or.inr (List.mem_cons_self b t))
    · exact List.mem_cons.mpr (Or.inr (List.mem_cons.mpr (Or.inr h1)))

theorem foldl_max_mem (l : List Nat) : ∀ a : Nat, l.foldl Nat.max a ∈ a :: l := by
  induction l with
  | nil => intro a; simp
  | cons b t ih =>
    intro a
    rw [List.foldl_cons]
    rcases List.mem_cons.mp (ih (Nat.max a b)) with h1 | h1
    · rw [h1]
      rcases max_eq_or a b with h2 | h2 <;> rw [h2]
      · exact List.mem_cons_self a (b :: t)
      · exact List.mem_cons.mpr (Or.inr (List.mem_cons_self b t))
    · exact List.mem_cons.mpr (Or.inr (List.mem_cons.mpr (Or.inr h1)))

theorem get_first_departure_time_spec (db : MetroDB) (day : DayT) (f : Nat × Nat)
    (h : get_first_departure_time db day = some f) :
    (∃ r ∈ db, r.day_type = day ∧ r.hour = f.1 ∧ r.minutes = f.2) ∧
    (∀ r ∈ db, r.day_type = day → f.1 ≤ r.hour) ∧
    (∀ r ∈ db, r.day_type = day → r.hour = f.1 → f.2 ≤ r.minutes) := by
  unfold get_first_departure_time at h
  split at h
  · exact absurd h (by simp)
  next h0 hs heq =>
    split at h
    · exact absurd h (by simp)
    next m0 ms heq2 =>
      simp only [Option.some.injEq] at h
      subst h
      refine ⟨?_, ?_, ?_⟩
      · have hmem := foldl_min_mem ms m0
        rw [← heq2] at hmem
        obtain ⟨r, hr, hrm⟩ := List.mem_map.mp hmem
        have hr2 := List.mem_filter.mp hr
        have hr3 := List.mem_filter.mp hr2.1
        refine ⟨r, hr3.1, by simpa using hr3.2, by simpa using hr2.2, hrm⟩
      · intro r hr hrd
        have hrmem : r.hour ∈ h0 :: hs := by
          rw [← heq]
          exact List.mem_map.mpr ⟨r, List.mem_filter.mpr ⟨hr, by simpa using hrd⟩, rfl⟩
        exact foldl_min_le_of_mem hs h0 r.hour hrmem
      · intro r hr hrd hrh
        have hrmem : r.minutes ∈ m0 :: ms := by
          rw [← heq2]
          refine List.mem_map.mpr ⟨r,
            List.mem_filter.mpr ⟨List.mem_filter.mpr ⟨hr, by simpa using hrd⟩, ?_⟩, rfl⟩
          simpa using hrh
        exact foldl_min_le_of_mem ms m0 r.minutes hrmem

theorem get_last_departure_time_spec (db : MetroDB) (day : DayT) (l : Nat × Nat)
    (h : get_last_departure_time db day = some l) :
    (∃ r ∈ db, r.day_type = day ∧ r.hour = l.1 ∧ r.minutes = l.2) ∧
    (∀ r ∈ db, r.day_type = day → r.hour ≤ l.1) ∧
    (∀ r ∈ db, r.day_type = day → r.hour = l.1 → r.minutes ≤ l.2) := by
  unfold get_last_departure_time at h
  split at h
  · exact absurd h (by simp)
  next h0 hs heq =>
    split at h
    · exact absurd h (by simp)
    next m0 ms heq2 =>
      simp only [Option.some.injEq] at h
      subst h
      refine ⟨?_, ?_, ?_⟩
      · have hmem := foldl_max_mem ms m0
        rw [← heq2] at hmem
        obtain ⟨r, hr, hrm⟩ := List.mem_map.mp hmem
        have hr2 := List.mem_filter.mp hr
        have hr3 := List.mem_filter.mp hr2.1
        refine ⟨r, hr3.1, by simpa using hr3.2, by simpa using hr2.2, hrm⟩
      · intro r hr hrd
        have hrmem : r.hour ∈ h0 :: hs := by
          rw [← heq]
          exact List.mem_map.mpr ⟨r, List.mem_filter.mpr ⟨hr, by simpa using hrd⟩, rfl⟩
        exact le_foldl_max_of_mem hs h0 r.hour hrmem
      · intro r hr hrd hrh
        have hrmem : r.minutes ∈ m0 :: ms := by
          rw [← heq2]
          refine List.mem_map.mpr ⟨r,
            List.mem_filter.mpr ⟨List.mem_filter.mpr ⟨hr, by simpa using hrd⟩, ?_⟩, rfl⟩
          simpa using hrh
        exact le_foldl_max_of_mem ms m0 r.minutes hrmem

theorem first_le_last (db : MetroDB) (day : DayT) (f l : Nat × Nat)
    (hf : get_first_departure_time db day = some f)
    (hl : get_last_departure_time db day = some l)
    (hmin : ∀ r ∈ db, r.minutes ≤ 59) :
    hmToSec f ≤ hmToSec l := by
  obtain ⟨⟨rf, hrf, hrfd, hrfh, hrfm⟩, hfle, hfmin⟩ := get_first_departure_time_spec db day f hf
  obtain ⟨⟨rl, hrl, hrld, hrlh, hrlm⟩, hlle, hlmax⟩ := get_last_departure_time_spec db day l hl
  have h1 : f.1 ≤ l.1 := hrlh ▸ hfle rl hrl hrld
  rcases Nat.lt_or_ge f.1 l.1 with hlt | hge
  · have hf59 : f.2 ≤ 59 := hrfm ▸ hmin rf hrf
    unfold hmToSec
    omega
  · have heq : f.1 = l.1 := Nat.le_antisymm h1 hge
    have h2 : f.2 ≤ rl.minutes := hfmin rl hrl hrld (by omega)
    unfold hmToSec
    omega

theorem insertionSort_lexGE_eq_reverse (xs : List (Nat × Nat)) :
    List.insertionSort lexGE xs = (List.insertionSort lexLE xs).reverse := by
  apply List.eq_of_perm_of_sorted (r := lexGE)
  · exact (List.perm_insertionSort lexGE xs).trans
      ((List.perm_insertionSort lexLE xs).symm.trans (List.reverse_perm _).symm)
  · exact List.sorted_insertionSort lexGE xs
  · rw [List.Sorted, List.pairwise_reverse]
    exact List.sorted_insertionSort lexLE xs

theorem sorted_get_next_departures (db : MetroDB) (s dir : String) (day : DayT)
    (h m limit : Nat) : List.Sorted lexLE (get_next_departures db s dir day h m limit) := by
  unfold get_next_departures
  exact List.Pairwise.sublist (List.take_sublist _ _) (List.sorted_insertionSort lexLE _)

theorem sorted_get_previous_departures (db : MetroDB) (s dir : String) (day : DayT)
    (h m limit : Nat) : List.Sorted lexGE (get_previous_departures db s dir day h m limit) := by
  unfold get_previous_departures
  exact List.Pairwise.sublist (List.take_sublist _ _) (List.sorted_insertionSort lexGE _)

theorem mem_get_next_departures {db : MetroDB} {s dir : String} {day : DayT}
    {h m limit : Nat} {e : Nat × Nat}
    (he : e ∈ get_next_departures db s dir day h m limit) :
    (∃ r ∈ db, r.station_id = s ∧ r.direction_station_id = dir ∧ r.day_type = day ∧
      rowEntry r = e) ∧ lexLE (h, m) e := by
  unfold get_next_departures at he
  have h1 := List.mem_of_mem_take he
  have h2 := (List.perm_insertionSort lexLE _).mem_iff.mp h1
  obtain ⟨r, hr, rfl⟩ := List.mem_map.mp h2
  have h3 := List.mem_filter.mp hr
  have h4 := h3.2
  rw [Bool.and_eq_true] at h4
  have h5 : r.station_id = s ∧ r.direction_station_id = dir ∧ r.day_type = day := by
    have := h4.1
    unfold rowMatches at this
    exact of_decide_eq_true this
  have h6 : r.hour > h ∨ (r.hour = h ∧ r.minutes ≥ m) := of_decide_eq_true h4.2
  refine ⟨⟨r, h3.1, h5.1, h5.2.1, h5.2.2, rfl⟩, ?_⟩
  unfold lexLE rowEntry
  simp only
  omega

theorem mem_get_previous_departures {db : MetroDB} {s dir : String} {day : DayT}
    {h m limit : Nat} {e : Nat × Nat}
    (he : e ∈ get_previous_departures db s dir day h m limit) :
    (∃ r ∈ db, r.station_id = s ∧ r.direction_station_id = dir ∧ r.day_type = day ∧
      rowEntry r = e) ∧ lexLE e (h, m) := by
  unfold get_previous_departures at he
  have h1 := List.mem_of_mem_take he
  have h2 := (List.perm_insertionSort lexGE _).mem_iff.mp h1
  obtain ⟨r, hr, rfl⟩ := List.mem_map.mp h2
  have h3 := List.mem_filter.mp hr
  have h4 := h3.2
  rw [Bool.and_eq_true] at h4
  have h5 : r.station_id = s ∧ r.direction_station_id = dir ∧ r.day_type = day := by
    have := h4.1
    unfold rowMatches at this
    exact of_decide_eq_true this
  have h6 : r.hour < h ∨ (r.hour = h ∧ r.minutes ≤ m) := of_decide_eq_true h4.2
  refine ⟨⟨r, h3.1, h5.1, h5.2.1, h5.2.2, rfl⟩, ?_⟩
  unfold lexLE rowEntry
  simp only
  omega

theorem length_get_next_departures (db : MetroDB) (s dir : String) (day : DayT)
    (h m limit : Nat) :
    (get_next_departures db s dir day h m limit).length =
      min limit ((db.filter (fun r =>
        rowMatches s dir day r && decide (r.hour > h ∨ (r.hour = h ∧ r.minutes ≥ m)))).length) := by
  unfold get_next_departures
  rw [List.length_take, (List.perm_insertionSort lexLE _).length_eq, List.length_map]

theorem length_get_previous_departures (db : MetroDB) (s dir : String) (day : DayT)
    (h m limit : Nat) :
    (get_previous_departures db s dir day h m limit).length =
      min limit ((db.filter (fun r =>
        rowMatches s dir day r && decide (r.hour < h ∨ (r.hour = h ∧ r.minutes ≤ m)))).length) := by
  unfold get_previous_departures
  rw [List.length_take, (List.perm_insertionSort lexGE _).length_eq, List.length_map]

theorem get_next_departures_zero_full (db : MetroDB) (s dir : String) (day : DayT)
    (limit : Nat) (hlim : (db.filter (rowMatches s dir day)).length ≤ limit) :
    get_next_departures db s dir day 0 0 limit =
      (get_station_schedule db s dir day).getD [] := by
  unfold get_next_departures get_station_schedule
  have hfeq : db.filter (fun r =>
      rowMatches s dir day r && decide (r.hour > 0 ∨ (r.hour = 0 ∧ r.minutes ≥ 0))) =
      db.filter (rowMatches s dir day) := by
    apply List.filter_congr
    intro r _
    have : (decide (r.hour > 0 ∨ (r.hour = 0 ∧ r.minutes ≥ 0))) = true := by
      apply decide_eq_true
      omega
    rw [this, Bool.and_true]
  rw [hfeq]
  have hlen : (List.insertionSort lexLE ((db.filter (rowMatches s dir day)).map rowEntry)).length
      ≤ limit := by
    rw [(List.perm_insertionSort lexLE _).length_eq, List.length_map]
    exact hlim
  rw [List.take_of_length_le hlen]
  rcases hempty : List.insertionSort lexLE ((db.filter (rowMatches s dir day)).map rowEntry) with
    _ | ⟨x, xs⟩
  · simp
  · simp

theorem get_previous_departures_full (db : MetroDB) (s dir : String) (day : DayT)
    (limit : Nat) (hvalid : ∀ r ∈ db, r.hour ≤ 23 ∧ r.minutes ≤ 59)
    (hlim : (db.filter (rowMatches s dir day)).length ≤ limit) :
    get_previous_departures db s dir day 23 59 limit =
      ((get_station_schedule db s dir day).getD []).reverse := by
  unfold get_previous_departures get_station_schedule
  have hfeq : db.filter (fun r =>
      rowMatches s dir day r && decide (r.hour < 23 ∨ (r.hour = 23 ∧ r.minutes ≤ 59))) =
      db.filter (rowMatches s dir day) := by
    apply List.filter_congr
    intro r hr
    have hv := hvalid r hr
    have : (decide (r.hour < 23 ∨ (r.hour = 23 ∧ r.minutes ≤ 59))) = true := by
      apply decide_eq_true
      omega
    rw [this, Bool.and_true]
  rw [hfeq, insertionSort_lexGE_eq_reverse]
  have hlen : (List.insertionSort lexLE
      ((db.filter (rowMatches s dir day)).map rowEntry)).reverse.length ≤ limit := by
    rw [List.length_reverse, (List.perm_insertionSort lexLE _).length_eq, List.length_map]
    exact hlim
  rw [List.take_of_length_le hlen]
  rcases hempty : List.insertionSort lexLE ((db.filter (rowMatches s dir day)).map rowEntry) with
    _ | ⟨x, xs⟩
  · simp
  · simp

theorem find_departure_before_go_spec (db : MetroDB) (toId dir : String) (day : DayT)
    (ab : Int) : ∀ (cands : List (Nat × Nat)) (dep arr : Int),
    find_departure_before_go db toId dir day ab cands = (some dep, some arr) →
    ∃ e ∈ cands,
      dep = (if combineDT ab e > ab then combineDT ab e - 86400 else combineDT ab e) ∧
      calc_arrival_time db toId dir day dep = some arr ∧ arr ≤ ab := by
  intro cands
  induction cands with
  | nil =>
    intro dep arr h
    exact absurd h (by simp [find_departure_before_go])
  | cons e rest ih =>
    intro dep arr h
    unfold find_departure_before_go at h
    dsimp only at h
    split at h
    next arr' harr =>
      split at h
      next hle =>
        simp only [Prod.mk.injEq, Option.some.injEq] at h
        obtain ⟨rfl, rfl⟩ := h
        exact ⟨e, List.mem_cons_self e rest, rfl, harr, hle⟩
      next hle =>
        obtain ⟨e', he', hrest⟩ := ih dep arr h
        exact ⟨e', List.mem_cons.mpr (Or.inr he'), hrest⟩
    next harr =>
      obtain ⟨e', he', hrest⟩ := ih dep arr h
      exact ⟨e', List.mem_cons.mpr (Or.inr he'), hrest⟩

/-- C5: `get_next_departures` returns exactly the stored entries of its key with
`(hour, minute)` lexicographically ≥ the given after-time, in ascending
`(hour, minute)` order, capped at `limit` and never wrapping past midnight
(every returned entry is ≥ the after-time); with after-time 00:00 and a limit
at least the number of matching rows it equals the full entry list of that
`(station, direction, day_type)` in ascending order. -/
theorem C5_get_next_departures (db : MetroDB) (s dir : String) (day : DayT)
    (h m limit : Nat) :
    List.Sorted lexLE (get_next_departures db s dir day h m limit) ∧
    (get_next_departures db s dir day h m limit).length =
      min limit ((db.filter (fun r =>
        rowMatches s dir day r && decide (r.hour > h ∨ (r.hour = h ∧ r.minutes ≥ m)))).length) ∧
    (∀ e ∈ get_next_departures db s dir day h m limit,
      (∃ r ∈ db, r.station_id = s ∧ r.direction_station_id = dir ∧ r.day_type = day ∧
        rowEntry r = e) ∧ lexLE (h, m) e) ∧
    ((db.filter (rowMatches s dir day)).length ≤ limit →
      get_next_departures db s dir day 0 0 limit =
        (get_station_schedule db s dir day).getD []) := by
  refine ⟨sorted_get_next_departures db s dir day h m limit,
    length_get_next_departures db s dir day h m limit,
    fun e he => mem_get_next_departures he,
    fun hlim => get_next_departures_zero_full db s dir day limit hlim⟩

theorem C5_get_next_departures_witness :
    List.Sorted lexLE (get_next_departures
      [⟨"a", "t", DayT.weekday, 6, 30⟩, ⟨"a", "t", DayT.weekday, 5, 45⟩] "a" "t"
      DayT.weekday 0 0 5) ∧
    get_next_departures [⟨"a", "t", DayT.weekday, 6, 30⟩, ⟨"a", "t", DayT.weekday, 5, 45⟩]
      "a" "t" DayT.weekday 0 0 5 =
      (get_station_schedule [⟨"a", "t", DayT.weekday, 6, 30⟩, ⟨"a", "t", DayT.weekday, 5, 45⟩]
        "a" "t" DayT.weekday).getD [] :=
  ⟨(C5_get_next_departures
      [⟨"a", "t", DayT.weekday, 6, 30⟩, ⟨"a", "t", DayT.weekday, 5, 45⟩] "a" "t"
      DayT.weekday 0 0 5).1,
   (C5_get_next_departures
      [⟨"a", "t", DayT.weekday, 6, 30⟩, ⟨"a", "t", DayT.weekday, 5, 45⟩] "a" "t"
      DayT.weekday 0 0 5).2.2.2 (by decide)⟩

theorem emod_le_self_of_nonneg (x : Int) (hx : 0 ≤ x) : x % 1440 ≤ x := by
  have h1 := Int.ediv_add_emod x 1440
  have h2 : 0 ≤ x / 1440 := Int.ediv_nonneg hx (by norm_num)
  omega

/-- C3: the timetable store's previous-departure primitive (modelled from the
spec; this revision's `MetroDatabase` lacks it while the router calls it) is
symmetric to `get_next_departures`: for every store it returns the entries of
its key with `(hour, minute)` lexicographically ≤ the before-time, in
descending `(hour, minute)` order, capped at `limit`; with before-time 23:59
and an unconstrained limit it is the full entry list in descending order; and
the router's arrive-by path (`_find_departure_before`) obtains its candidate
boarding departures through this primitive. -/
theorem C3_get_previous_departures (db : MetroDB) (s dir : String) (day : DayT)
    (h m limit : Nat) :
    List.Sorted lexGE (get_previous_departures db s dir day h m limit) ∧
    (get_previous_departures db s dir day h m limit).length =
      min limit ((db.filter (fun r =>
        rowMatches s dir day r && decide (r.hour < h ∨ (r.hour = h ∧ r.minutes ≤ m)))).length) ∧
    (∀ e ∈ get_previous_departures db s dir day h m limit,
      (∃ r ∈ db, r.station_id = s ∧ r.direction_station_id = dir ∧ r.day_type = day ∧
        rowEntry r = e) ∧ lexLE e (h, m)) ∧
    ((∀ r ∈ db, r.hour ≤ 23 ∧ r.minutes ≤ 59) →
      (db.filter (rowMatches s dir day)).length ≤ limit →
      get_previous_departures db s dir day 23 59 limit =
        ((get_station_schedule db s dir day).getD []).reverse) ∧
    router_get_previous_departures db s dir day h m limit =
      get_previous_departures db s dir day h m limit ∧
    (∀ (fromId toId : String) (ab dep arr : Int),
      find_departure_before db fromId toId dir day ab limit = (some dep, some arr) →
      ∃ e ∈ router_get_previous_departures db fromId dir day (hourOf ab) (minuteOf ab) limit,
        dep = (if combineDT ab e > ab then combineDT ab e - 86400 else combineDT ab e) ∧
        calc_arrival_time db toId dir day dep = some arr ∧ arr ≤ ab) := by
  refine ⟨sorted_get_previous_departures db s dir day h m limit,
    length_get_previous_departures db s dir day h m limit,
    fun e he => mem_get_previous_departures he,
    fun hv hlim => get_previous_departures_full db s dir day limit hv hlim,
    rfl,
    fun fromId toId ab dep arr hfd => ?_⟩
  exact find_departure_before_go_spec db toId dir day ab _ dep arr hfd

theorem C3_get_previous_departures_witness :
    List.Sorted lexGE (get_previous_departures
      [⟨"a", "t", DayT.weekday, 6, 30⟩, ⟨"a", "t", DayT.weekday, 5, 45⟩] "a" "t"
      DayT.weekday 23 59 5) ∧
    get_previous_departures [⟨"a", "t", DayT.weekday, 6, 30⟩, ⟨"a", "t", DayT.weekday, 5, 45⟩]
      "a" "t" DayT.weekday 23 59 5 =
      ((get_station_schedule [⟨"a", "t", DayT.weekday, 6, 30⟩, ⟨"a", "t", DayT.weekday, 5, 45⟩]
        "a" "t" DayT.weekday).getD []).reverse :=
  ⟨(C3_get_previous_departures
      [⟨"a", "t", DayT.weekday, 6, 30⟩, ⟨"a", "t", DayT.weekday, 5, 45⟩] "a" "t"
      DayT.weekday 23 59 5).1,
   (C3_get_previous_departures
      [⟨"a", "t", DayT.weekday, 6, 30⟩, ⟨"a", "t", DayT.weekday, 5, 45⟩] "a" "t"
      DayT.weekday 23 59 5).2.2.2.1 (by decide) (by decide)⟩

/-- C4 (amended): `is_metro_open` is true iff the checked time-of-day lies
between the wall-clock value of (first departure − 90 minutes) and the last
departure; with no rows for the day type it reports open; consequently, for a
non-empty table whose 90-minute early window does not cross midnight (first
departure at or after 01:30), it is true at the first departure and at the last
departure, and false one minute after the last departure. -/
theorem C4_is_metro_open (db : MetroDB) (day : DayT) :
    (∀ (t : Nat) (l f : Nat × Nat), get_last_departure_time db day = some l →
      get_first_departure_time db day = some f →
      (openAt db day t = true ↔
        ((((f.1 * 60 + f.2 : Int) - 90) % 1440) * 60 ≤ (t : Int) ∧ t ≤ hmToSec l))) ∧
    (∀ t : Nat, (get_last_departure_time db day = none ∨
      get_first_departure_time db day = none) → openAt db day t = true) ∧
    (∀ l f : Nat × Nat, get_last_departure_time db day = some l →
      get_first_departure_time db day = some f →
      (∀ r ∈ db, r.minutes ≤ 59) → 5400 ≤ hmToSec f →
      openAt db day (hmToSec f) = true ∧ openAt db day (hmToSec l) = true ∧
      openAt db day (hmToSec l + 60) = false) := by
  have hiff : ∀ (t : Nat) (l f : Nat × Nat), get_last_departure_time db day = some l →
      get_first_departure_time db day = some f →
      (openAt db day t = true ↔
        ((((f.1 * 60 + f.2 : Int) - 90) % 1440) * 60 ≤ (t : Int) ∧ t ≤ hmToSec l)) := by
    intro t l f hl hf
    unfold openAt is_metro_open
    rw [hl, hf]
    simp only [decide_eq_true_eq]
    constructor
    · intro hx; exact hx
    · intro hx; exact hx
  refine ⟨hiff, ?_, ?_⟩
  · intro t hcase
    rcases hcase with hnone | hnone
    · simp [openAt, is_metro_open, hnone]
    · rcases hlast : get_last_departure_time db day with _ | l
      · simp [openAt, is_metro_open, hlast]
      · simp [openAt, is_metro_open, hlast, hnone]
  · intro l f hl hf hmin hfar
    have hfl := first_le_last db day f l hf hl hmin
    have hfMin : (90 : Int) ≤ (f.1 * 60 + f.2 : Int) := by
      unfold hmToSec at hfar
      omega
    have hnonneg : (0 : Int) ≤ (f.1 * 60 + f.2 : Int) - 90 := by omega
    have hmod := emod_le_self_of_nonneg ((f.1 * 60 + f.2 : Int) - 90) hnonneg
    have hfsec : ((((f.1 * 60 + f.2 : Int) - 90) % 1440) * 60 : Int) ≤ (hmToSec f : Int) := by
      unfold hmToSec
      push_cast
      nlinarith [hmod, hnonneg]
    refine ⟨?_, ?_, ?_⟩
    · rw [hiff (hmToSec f) l f hl hf]
      constructor
      · exact hfsec
      · exact_mod_cast hfl
    · rw [hiff (hmToSec l) l f hl hf]
      constructor
      · calc ((((f.1 * 60 + f.2 : Int) - 90) % 1440) * 60 : Int) ≤ (hmToSec f : Int) := hfsec
          _ ≤ (hmToSec l : Int) := by exact_mod_cast hfl
      · exact Nat.le_refl _
    · have := hiff (hmToSec l + 60) l f hl hf
      rcases hb : openAt db day (hmToSec l + 60) with _ | _
      · rfl
      · exfalso
        have := (this.mp hb).2
        omega

theorem C4_is_metro_open_witness :
    openAt [⟨"a", "t", DayT.weekday, 5, 45⟩, ⟨"a", "t", DayT.weekday, 23, 50⟩]
      DayT.weekday (hmToSec (5, 45)) = true ∧
    openAt [⟨"a", "t", DayT.weekday, 5, 45⟩, ⟨"a", "t", DayT.weekday, 23, 50⟩]
      DayT.weekday (hmToSec (23, 50)) = true ∧
    openAt [⟨"a", "t", DayT.weekday, 5, 45⟩, ⟨"a", "t", DayT.weekday, 23, 50⟩]
      DayT.weekday (hmToSec (23, 50) + 60) = false :=
  (C4_is_metro_open [⟨"a", "t", DayT.weekday, 5, 45⟩, ⟨"a", "t", DayT.weekday, 23, 50⟩]
      DayT.weekday).2.2 (23, 50) (5, 45) (by decide) (by decide) (by decide) (by decide)

/-- C4 counterexample: with a single weekday departure at 00:30 the table is
non-empty yet `is_metro_open` is false at the first departure itself, because
the 90-minute early window wraps to 23:00 on the wall clock; the claim as
stated requires it to be true at the first departure. -/
theorem C4_counterexample :
    get_first_departure_time [⟨"a", "t", DayT.weekday, 0, 30⟩] DayT.weekday = some (0, 30) ∧
    get_last_departure_time [⟨"a", "t", DayT.weekday, 0, 30⟩] DayT.weekday = some (0, 30) ∧
    openAt [⟨"a", "t", DayT.weekday, 0, 30⟩] DayT.weekday (hmToSec (0, 30)) = false := by
  refine ⟨by decide, by decide, by decide⟩

/-- C7: `set_state` touches only the keyed row's state and timestamp, keeping
the stored data text (hence the data mapping) intact and every other session's
row untouched; `set_data` symmetrically keeps the stored state. -/
theorem C7_session_store_frame (tbl : FsmTable) (k q : StorageKey)
    (st : Option String) (payload : String) (now : Int) (r : FsmRow) :
    (tbl k = some r → set_state tbl k st now k = some ⟨st, r.data, now⟩) ∧
    (q ≠ k → set_state tbl k st now q = tbl q) ∧
    (tbl k = some r → set_data tbl k payload now k = some ⟨r.state, payload, now⟩) ∧
    (q ≠ k → set_data tbl k payload now q = tbl q) := by
  refine ⟨?_, ?_, ?_, ?_⟩
  · intro h
    unfold set_state
    rw [if_pos rfl, h]
  · intro h
    unfold set_state
    rw [if_neg h]
  · intro h
    unfold set_data
    rw [if_pos rfl, h]
  · intro h
    unfold set_data
    rw [if_neg h]

theorem C7_session_store_frame_witness :
    set_state (fun _ => some ⟨some "RouteStates:waiting_for_to_station", "d0", 0⟩)
      ⟨1, 2, "default"⟩ (some "RouteStates:waiting_for_time_choice") 5 ⟨1, 2, "default"⟩ =
      some ⟨some "RouteStates:waiting_for_time_choice", "d0", 5⟩ ∧
    set_data (fun _ => some ⟨some "RouteStates:waiting_for_to_station", "d0", 0⟩)
      ⟨1, 2, "default"⟩ "d1" 5 ⟨1, 2, "default"⟩ =
      some ⟨some "RouteStates:waiting_for_to_station", "d1", 5⟩ :=
  ⟨(C7_session_store_frame (fun _ => some ⟨some "RouteStates:waiting_for_to_station", "d0", 0⟩)
      ⟨1, 2, "default"⟩ ⟨1, 2, "default"⟩ (some "RouteStates:waiting_for_time_choice") "d1" 5
      ⟨some "RouteStates:waiting_for_to_station", "d0", 0⟩).1 rfl,
   (C7_session_store_frame (fun _ => some ⟨some "RouteStates:waiting_for_to_station", "d0", 0⟩)
      ⟨1, 2, "default"⟩ ⟨1, 2, "default"⟩ (some "RouteStates:waiting_for_time_choice") "d1" 5
      ⟨some "RouteStates:waiting_for_to_station", "d0", 0⟩).2.2.1 rfl⟩

/-- C8: evaluation at the failing input.  In state `waiting_for_to_station`
with stored `valid_stations = ["Університет"]`, the text "not-a-station" is
outside the valid choices, yet `process_to_station` records it as `to_station`
and advances the FSM to `waiting_for_time_choice` — unlike
`process_from_station`, which re-prompts and leaves the session unchanged; the
only free-form input accepted is the custom-time pattern. -/
theorem C8_to_station_skips_validation :
    process_to_station
      ⟨some RouteSt.waiting_for_to_station, ⟨["Університет"], [], some "Холодна гора", none⟩⟩
      "not-a-station" =
      (⟨some RouteSt.waiting_for_time_choice,
        ⟨["Університет"], [], some "Холодна гора", some "not-a-station"⟩⟩,
       ReplyKind.advance) ∧
    process_from_station
      ⟨some RouteSt.waiting_for_from_station, ⟨["Університет"], [], none, none⟩⟩
      "not-a-station" =
      (⟨some RouteSt.waiting_for_from_station, ⟨["Університет"], [], none, none⟩⟩,
       ReplyKind.reprompt) ∧
    process_custom_time "7:30" = TimeInput.accepted 7 30 ∧
    process_custom_time "23:59" = TimeInput.accepted 23 59 ∧
    process_custom_time "24:00" = TimeInput.rejected ∧
    process_custom_time "7:60" = TimeInput.rejected ∧
    process_custom_time "x7:30" = TimeInput.rejected ∧
    process_custom_time "107:30" = TimeInput.rejected := by
  decide

theorem nodeIds_add_edge (g : MGraph) (x y : String) (w : Nat) (t : Bool) :
    nodeIds (add_edge g x y w t) = nodeIds g := by
  induction g with
  | nil => rfl
  | cons p rest ih =>
    by_cases hpx : p.1 = x <;> simp [add_edge, nodeIds, hpx] <;>
      simpa [nodeIds] using ih

theorem edgesOf_add_edge (g : MGraph) (x y a : String) (w : Nat) (t : Bool) :
    edgesOf (add_edge g x y w t) a =
      if x = a ∧ a ∈ nodeIds g then edgesOf g a ++ [⟨y, w, t⟩] else edgesOf g a := by
  induction g with
  | nil => simp [edgesOf, add_edge, nodeIds]
  | cons p rest ih =>
    by_cases hpx : p.1 = x <;> by_cases hpa : p.1 = a
    · have hxa : x = a := by rw [← hpx, hpa]
      simp [add_edge, edgesOf, nodeIds, hpx, hpa, hxa]
    · have hxa : ¬x = a := fun hc => hpa (hpx.trans hc)
      rw [add_edge, if_pos hpx, edgesOf, ih]
      simp [hpa, hxa, edgesOf]
    · have hax : ¬a = x := fun hc => hpx (hpa.trans hc)
      have hxa : ¬x = a := fun hc => hax hc.symm
      simp [add_edge, edgesOf, nodeIds, hpx, hpa, hxa, hax]
    · have hap : a ≠ p.1 := fun hc => hpa hc.symm
      rw [add_edge, if_neg hpx, edgesOf, ih]
      simp only [hpa, ite_false, if_neg]
      have he : edgesOf (p :: rest) a = edgesOf rest a := by simp [edgesOf, hpa]
      rw [he]
      by_cases hxa : x = a
      · refine if_congr ?_ rfl rfl
        constructor
        · exact fun hc => ⟨hc.1, List.mem_cons.mpr (Or.inr hc.2)⟩
        · refine fun hc => ⟨hc.1, ?_⟩
          rcases List.mem_cons.mp hc.2 with h1 | h1
          · exact absurd h1 hap
          · exact h1
      · simp [hxa]

theorem nodeIds_add_line_edges (ls : List Station) :
    ∀ g : MGraph, nodeIds (add_line_edges g ls) = nodeIds g := by
  induction ls with
  | nil => intro g; rfl
  | cons a tail ih =>
    intro g
    cases tail with
    | nil => rfl
    | cons b rest =>
      rw [add_line_edges, ih, nodeIds_add_edge, nodeIds_add_edge]

theorem mem_edges_add_line_edges (ls : List Station) :
    ∀ (g : MGraph) (a : String) (e : GEdge), e ∈ edgesOf (add_line_edges g ls) a →
      e ∈ edgesOf g a ∨ (e.weight = 2 ∧ e.is_transfer = false) := by
  induction ls with
  | nil => intro g a e he; exact Or.inl he
  | cons s tail ih =>
    intro g a e he
    cases tail with
    | nil => exact Or.inl he
    | cons b rest =>
      rw [add_line_edges] at he
      rcases ih _ a e he with h1 | h1
      · rw [edgesOf_add_edge] at h1
        split at h1
        · rcases List.mem_append.mp h1 with h2 | h2
          · rw [edgesOf_add_edge] at h2
            split at h2
            · rcases List.mem_append.mp h2 with h3 | h3
              · exact Or.inl h3
              · simp only [List.mem_singleton] at h3
                subst h3
                exact Or.inr ⟨rfl, rfl⟩
            · exact Or.inl h2
          · simp only [List.mem_singleton] at h2
            subst h2
            exact Or.inr ⟨rfl, rfl⟩
        · rw [edgesOf_add_edge] at h1
          split at h1
          · rcases List.mem_append.mp h1 with h2 | h2
            · exact Or.inl h2
            · simp only [List.mem_singleton] at h2
              subst h2
              exact Or.inr ⟨rfl, rfl⟩
          · exact Or.inl h1
      · exact Or.inr h1

theorem edgesOf_base (sts : List Station) (a : String) :
    edgesOf (sts.map (fun s => (s.id, ([] : List GEdge)))) a = [] := by
  induction sts with
  | nil => rfl
  | cons s rest ih =>
    by_cases h : s.id = a <;> simp [edgesOf, h, ih]

theorem nodeIds_base (sts : List Station) :
    nodeIds (sts.map (fun s => (s.id, ([] : List GEdge)))) = sts.map Station.id := by
  induction sts with
  | nil => rfl
  | cons s rest ih => simp [nodeIds]

theorem countP_transfer_foldl (ts : List (String × String)) :
    ∀ (g : MGraph) (a b : String), a ∈ nodeIds g →
    (edgesOf (ts.foldl (fun g p => add_edge g p.1 p.2 3 true) g) a).countP
        (fun e => e.to_station_id = b && e.is_transfer) =
      (edgesOf g a).countP (fun e => e.to_station_id = b && e.is_transfer) +
        ts.countP (fun p => p.1 = a && p.2 = b) := by
  induction ts with
  | nil => intro g a b _; simp
  | cons p rest ih =>
    intro g a b ha
    rw [List.foldl_cons]
    have ha' : a ∈ nodeIds (add_edge g p.1 p.2 3 true) := by
      rw [nodeIds_add_edge]; exact ha
    rw [ih _ a b ha', edgesOf_add_edge]
    by_cases hpa : p.1 = a
    · rw [if_pos ⟨hpa, ha⟩, List.countP_append, List.countP_cons]
      by_cases hpb : p.2 = b
      · simp [hpa, hpb]
        omega
      · simp [hpa, hpb]
    · rw [if_neg (fun hc => hpa hc.1), List.countP_cons]
      simp [hpa]

theorem mem_edges_foldl_transfers (ts : List (String × String)) :
    ∀ (g : MGraph) (a : String) (e : GEdge),
      e ∈ edgesOf (ts.foldl (fun g p => add_edge g p.1 p.2 3 true) g) a →
      e ∈ edgesOf g a ∨ (e.weight = 3 ∧ e.is_transfer = true ∧ (a, e.to_station_id) ∈ ts) := by
  induction ts with
  | nil => intro g a e he; exact Or.inl he
  | cons p rest ih =>
    intro g a e he
    rw [List.foldl_cons] at he
    rcases ih _ a e he with h1 | h1
    · rw [edgesOf_add_edge] at h1
      split at h1
      next hcond =>
        rcases List.mem_append.mp h1 with h2 | h2
        · exact Or.inl h2
        · simp only [List.mem_singleton] at h2
          subst h2
          exact Or.inr ⟨rfl, rfl, by rw [← hcond.1]; exact List.mem_cons_self p rest⟩
      next => exact Or.inl h1
    · exact Or.inr ⟨h1.1, h1.2.1, List.mem_cons.mpr (Or.inr h1.2.2)⟩

theorem countP_pair_of_nodup (ts : List (String × String))
    (hnd : (ts.map Prod.fst).Nodup) (a b : String) :
    ts.countP (fun p => p.1 = a && p.2 = b) = if (a, b) ∈ ts then 1 else 0 := by
  induction ts with
  | nil => simp
  | cons p rest ih =>
    rw [List.map_cons, List.nodup_cons] at hnd
    rw [List.countP_cons]
    by_cases hpa : p.1 = a
    · by_cases hpb : p.2 = b
      · have hcnt : rest.countP (fun p => p.1 = a && p.2 = b) = 0 := by
          rw [List.countP_eq_zero]
          intro q hq
          simp only [Bool.and_eq_true, decide_eq_true_eq]
          intro hc
          exact hnd.1 (by rw [hpa, ← hc.1]; exact List.mem_map_of_mem Prod.fst hq)
        have hmem : (a, b) ∈ p :: rest := by
          rw [show p = (a, b) from Prod.ext hpa hpb]
          exact List.mem_cons_self _ _
        simp [hcnt, hpa, hpb, hmem]
      · have hne : (a, b) ∉ p :: rest := by
          intro hc
          rcases List.mem_cons.mp hc with h2 | h2
          · exact hpb (by rw [← h2])
          · exact hnd.1 (by rw [hpa]; exact List.mem_map_of_mem Prod.fst h2)
        rw [ih hnd.2]
        have : (a, b) ∉ rest := fun hc => hne (List.mem_cons.mpr (Or.inr hc))
        simp [hpa, hpb, hne, this]
    · have hne : (a, b) ∉ p :: rest → True := fun _ => trivial
      rw [ih hnd.2]
      have hpab : p ≠ (a, b) := fun hc => hpa (by rw [hc])
      by_cases hmem : (a, b) ∈ rest
      · have : (a, b) ∈ p :: rest := List.mem_cons.mpr (Or.inr hmem)
        simp [hpa, hmem, this]
      · have : (a, b) ∉ p :: rest := by
          intro hc
          rcases List.mem_cons.mp hc with h2 | h2
          · exact hpab h2.symm
          · exact hmem h2
        simp [hpa, hmem, this]

/-- C9: the graph builder adds, per entry `(a, b)` of the transfers mapping with
`a` a known station, exactly one directed transfer edge `a → b`; every transfer
edge out of `a` has weight 3 and stems from such an entry, so the reverse edge
`b → a` exists iff the mapping also contains `(b, a)` — bidirectionality is a
property of the data file, not of the construction. -/
theorem C9_transfer_edges (sts : List Station) (transfers : List (String × String))
    (a b : String) (hkeys : (transfers.map Prod.fst).Nodup)
    (ha : a ∈ sts.map Station.id) :
    (edgesOf (build_graph sts transfers) a).countP
        (fun e => e.to_station_id = b && e.is_transfer) =
      (if (a, b) ∈ transfers then 1 else 0) ∧
    (∀ e ∈ edgesOf (build_graph sts transfers) a, e.is_transfer = true →
      e.weight = 3 ∧ (a, e.to_station_id) ∈ transfers) := by
  unfold build_graph
  set base : MGraph := sts.map (fun s => (s.id, ([] : List GEdge))) with hbase
  set withO := add_line_edges (add_line_edges
      (add_line_edges base (stations_on_line sts MLine.kholodnohirsko_zavodska))
      (stations_on_line sts MLine.saltivska))
      (stations_on_line sts MLine.oleksiivska) with hwithO
  have hids : nodeIds withO = sts.map Station.id := by
    rw [hwithO, nodeIds_add_line_edges, nodeIds_add_line_edges, nodeIds_add_line_edges,
      hbase, nodeIds_base]
  have hmemO : ∀ e ∈ edgesOf withO a, e.is_transfer = false := by
    intro e he
    rcases mem_edges_add_line_edges _ _ _ _ he with h1 | h1
    · rcases mem_edges_add_line_edges _ _ _ _ h1 with h2 | h2
      · rcases mem_edges_add_line_edges _ _ _ _ h2 with h3 | h3
        · rw [hbase, edgesOf_base] at h3
          exact absurd h3 (List.not_mem_nil e)
        · exact h3.2
      · exact h2.2
    · exact h1.2
  have hcnt0 : (edgesOf withO a).countP (fun e => e.to_station_id = b && e.is_transfer) = 0 := by
    rw [List.countP_eq_zero]
    intro e he
    simp [hmemO e he]
  have haO : a ∈ nodeIds withO := by rw [hids]; exact ha
  constructor
  · rw [countP_transfer_foldl transfers withO a b haO, hcnt0,
      countP_pair_of_nodup transfers hkeys a b]
    omega
  · intro e he het
    rcases mem_edges_foldl_transfers transfers withO a e he with h1 | h1
    · exact absurd het (by simp [hmemO e h1])
    · exact ⟨h1.1, h1.2.2⟩

theorem C9_transfer_edges_witness :
    (edgesOf (build_graph
        [⟨"m", "М", "M", MLine.kholodnohirsko_zavodska, 1, some "i"⟩,
         ⟨"i", "І", "I", MLine.saltivska, 1, some "m"⟩]
        [("m", "i"), ("i", "m")]) "m").countP
      (fun e => e.to_station_id = "i" && e.is_transfer) = 1 :=
  by
    have h := (C9_transfer_edges
      [⟨"m", "М", "M", MLine.kholodnohirsko_zavodska, 1, some "i"⟩,
       ⟨"i", "І", "I", MLine.saltivska, 1, some "m"⟩]
      [("m", "i"), ("i", "m")] "m" "i" (by decide) (by decide)).1
    rw [h]
    decide

theorem py_lower_ne_empty {s : String} (h : s ≠ "") : py_lower s ≠ "" := by
  intro hc
  apply h
  apply String.ext
  have hdata : (py_lower s).data = s.data.map Char.toLower := rfl
  rw [hc] at hdata
  have : s.data.map Char.toLower = [] := hdata.symm
  have hnil : s.data = [] := List.map_eq_nil_iff.mp this
  rw [hnil]

theorem index_insert_ne (idx : String → Option Station) (key : String) (st : Station)
    (q : String) (h : q ≠ key) : index_insert idx key st q = idx q := by
  unfold index_insert
  rw [if_neg h]

theorem build_lang_index_empty_key (lang : Lang) (sts : List Station)
    (hnames : ∀ st ∈ sts, station_name st lang ≠ "") :
    build_lang_index sts lang "" = none := by
  unfold build_lang_index
  suffices h : ∀ (l : List Station) (idx : String → Option Station),
      (∀ st ∈ l, station_name st lang ≠ "") → idx "" = none →
      (l.foldl (fun idx st =>
        let nm := py_lower (station_name st lang)
        let idx1 := index_insert idx nm st
        let nrm := norm_name nm
        if nrm ≠ "" ∧ nrm ≠ nm then index_insert idx1 nrm st else idx1) idx) "" = none by
    exact h sts _ hnames rfl
  intro l
  induction l with
  | nil => intro idx _ hidx; exact hidx
  | cons st tail ih =>
    intro idx hl hidx
    rw [List.foldl_cons]
    apply ih _ (fun s hs => hl s (List.mem_cons.mpr (Or.inr hs)))
    have hnm : py_lower (station_name st lang) ≠ "" :=
      py_lower_ne_empty (hl st (List.mem_cons_self st tail))
    split
    next hcond =>
      rw [index_insert_ne _ _ _ _ (fun hc => hcond.1 hc.symm)]
      rw [index_insert_ne _ _ _ _ (fun hc => hnm hc.symm)]
      exact hidx
    next =>
      rw [index_insert_ne _ _ _ _ (fun hc => hnm hc.symm)]
      exact hidx

theorem build_name_index_empty_key (sts : List Station)
    (aliases : List (String × String)) (lang : Lang)
    (hnames : ∀ st ∈ sts, station_name st lang ≠ "")
    (haliases : ∀ p ∈ aliases, py_strip (py_lower p.1) ≠ "") :
    build_name_index sts aliases lang "" = none := by
  unfold build_name_index
  cases lang with
  | en => exact build_lang_index_empty_key Lang.en sts hnames
  | ua =>
    suffices h : ∀ (l : List (String × String)) (idx : String → Option Station),
        (∀ p ∈ l, py_strip (py_lower p.1) ≠ "") → idx "" = none →
        (l.foldl (fun idx p =>
          match idx (py_strip (py_lower p.2)) with
          | some st => index_insert idx (py_strip (py_lower p.1)) st
          | none => idx) idx) "" = none by
      exact h aliases _ haliases (build_lang_index_empty_key Lang.ua sts hnames)
    intro l
    induction l with
    | nil => intro idx _ hidx; exact hidx
    | cons p tail ih =>
      intro idx hl hidx
      rw [List.foldl_cons]
      apply ih _ (fun s hs => hl s (List.mem_cons.mpr (Or.inr hs)))
      have hkey : py_strip (py_lower p.1) ≠ "" := hl p (List.mem_cons_self p tail)
      rcases hres : idx (py_strip (py_lower p.2)) with _ | st
      · simp only [hres]
        exact hidx
      · simp only [hres]
        rw [index_insert_ne _ _ _ _ (fun hc => hkey hc.symm)]
        exact hidx

/-- C10: `find_station_by_name` is total over arbitrary query strings (the
embedding is a function into `Option`), and for every query whose lower-cased
stripped form is empty the exact index misses (its keys are all non-empty) while
the empty string is a substring of every name, so the fallback scan returns the
first station in iteration order rather than `None`. -/
theorem C10_find_station_empty_query (st0 : Station) (rest : List Station)
    (aliases : List (String × String)) (lang : Lang) (q : String)
    (hnames : ∀ st ∈ st0 :: rest, station_name st lang ≠ "")
    (haliases : ∀ p ∈ aliases, py_strip (py_lower p.1) ≠ "")
    (hq : py_strip (py_lower q) = "") :
    find_station_by_name (st0 :: rest) aliases q lang = some st0 := by
  unfold find_station_by_name
  rw [hq, build_name_index_empty_key (st0 :: rest) aliases lang hnames haliases]
  have hpred : (py_in "" (py_lower (station_name st0 lang)) ||
      py_in (py_lower (station_name st0 lang)) "") = true := by
    have h1 : py_in "" (py_lower (station_name st0 lang)) = true := by
      unfold py_in
      apply decide_eq_true
      exact ⟨[], (py_lower (station_name st0 lang)).toList, by simp⟩
    rw [h1, Bool.true_or]
  exact List.find?_cons_of_pos rest hpred

theorem C10_find_station_empty_query_witness :
    find_station_by_name
      [⟨"kholodna_hora", "Холодна гора", "Kholodna Hora", MLine.kholodnohirsko_zavodska, 1, none⟩,
       ⟨"universytet", "Університет", "Universytet", MLine.saltivska, 2, none⟩]
      [("хтз", "Тракторний завод")] "   " Lang.ua =
      some ⟨"kholodna_hora", "Холодна гора", "Kholodna Hora",
        MLine.kholodnohirsko_zavodska, 1, none⟩ :=
  C10_find_station_empty_query
    ⟨"kholodna_hora", "Холодна гора", "Kholodna Hora", MLine.kholodnohirsko_zavodska, 1, none⟩
    [⟨"universytet", "Університет", "Universytet", MLine.saltivska, 2, none⟩]
    [("хтз", "Тракторний завод")] Lang.ua "   " (by decide) (by decide) (by decide)

theorem entryLE_fst_true {a b : Nat × String} (h : entryLE a b = true) : a.1 ≤ b.1 := by
  unfold entryLE at h
  rw [Bool.or_eq_true] at h
  rcases h with h | h
  · exact Nat.le_of_lt (of_decide_eq_true h)
  · rw [Bool.and_eq_true] at h
    exact Nat.le_of_eq (of_decide_eq_true h.1)

theorem entryLE_fst_false {a b : Nat × String} (h : entryLE a b = false) : b.1 ≤ a.1 := by
  unfold entryLE at h
  rw [Bool.or_eq_false_iff] at h
  have := h.1
  rcases Nat.lt_or_ge a.1 b.1 with hlt | hge
  · rw [decide_eq_true hlt] at this
    exact absurd this (by simp)
  · exact hge

theorem foldl_entry_spec (t : List (Nat × String)) :
    ∀ e : Nat × String,
      (t.foldl (fun m x => if entryLE m x then m else x) e ∈ e :: t) ∧
      (t.foldl (fun m x => if entryLE m x then m else x) e).1 ≤ e.1 ∧
      (∀ x ∈ t, (t.foldl (fun m x => if entryLE m x then m else x) e).1 ≤ x.1) := by
  induction t with
  | nil =>
    intro e
    exact ⟨List.mem_singleton.mpr rfl, Nat.le_refl _, by simp⟩
  | cons b t ih =>
    intro e
    rw [List.foldl_cons]
    by_cases hle : entryLE e b = true
    · rw [if_pos hle]
      obtain ⟨hmem, hfst, hall⟩ := ih e
      refine ⟨?_, hfst, ?_⟩
      · rcases List.mem_cons.mp hmem with h1 | h1
        · exact List.mem_cons.mpr (Or.inl h1)
        · exact List.mem_cons.mpr (Or.inr (List.mem_cons.mpr (Or.inr h1)))
      · intro x hx
        rcases List.mem_cons.mp hx with h1 | h1
        · rw [h1]
          exact Nat.le_trans hfst (entryLE_fst_true hle)
        · exact hall x h1
    · rw [if_neg hle]
      rw [Bool.not_eq_true] at hle
      obtain ⟨hmem, hfst, hall⟩ := ih b
      refine ⟨?_, Nat.le_trans hfst (entryLE_fst_false hle), ?_⟩
      · rcases List.mem_cons.mp hmem with h1 | h1
        · exact List.mem_cons.mpr (Or.inr (List.mem_cons.mpr (Or.inl h1)))
        · exact List.mem_cons.mpr (Or.inr (List.mem_cons.mpr (Or.inr h1)))
      · intro x hx
        rcases List.mem_cons.mp hx with h1 | h1
        · rw [h1]
          exact hfst
        · exact hall x h1

theorem popMin_none_iff (pq : List (Nat × String)) : popMin pq = none ↔ pq = [] := by
  cases pq with
  | nil => simp [popMin]
  | cons e es => simp [popMin]

theorem popMin_some_facts {pq rest : List (Nat × String)} {e : Nat × String}
    (h : popMin pq = some (e, rest)) :
    e ∈ pq ∧ rest = pq.erase e ∧ ∀ x ∈ pq, e.1 ≤ x.1 := by
  cases pq with
  | nil => exact absurd h (by simp [popMin])
  | cons b t =>
    unfold popMin at h
    simp only [Option.some.injEq, Prod.mk.injEq] at h
    obtain ⟨he, hrest⟩ := h
    obtain ⟨hmem, hfst, hall⟩ := foldl_entry_spec t b
    subst he
    refine ⟨hmem, hrest.symm, ?_⟩
    intro x hx
    rcases List.mem_cons.mp hx with h1 | h1
    · rw [h1]
      exact hfst
    · exact hall x h1

theorem mem_nodeIds_of_edge {g : MGraph} {u : String} {e : GEdge}
    (he : e ∈ edgesOf g u) : u ∈ nodeIds g := by
  induction g with
  | nil => exact absurd he (List.not_mem_nil e)
  | cons p rest ih =>
    by_cases hpu : p.1 = u
    · rw [nodeIds, List.map_cons, hpu]
      exact List.mem_cons_self u _
    · rw [edgesOf, if_neg hpu] at he
      exact List.mem_cons.mpr (Or.inr (ih he))

theorem PathCost.src_mem {g : MGraph} {a b : String} {vs : List String} {c : Nat}
    (h : PathCost g a b vs c) : a ∈ nodeIds g := by
  cases h with
  | single v hv => exact hv
  | step u b vs c e he tail => exact mem_nodeIds_of_edge he

theorem PathCost.dst_mem {g : MGraph} {a b : String} {vs : List String} {c : Nat}
    (h : PathCost g a b vs c) : b ∈ nodeIds g := by
  induction h with
  | single v hv => exact hv
  | step u b vs c e he tail ih => exact ih

theorem PathCost.append_edge {g : MGraph} {a u : String} {vs : List String} {c : Nat}
    (h : PathCost g a u vs c) (hclosed : ClosedGraph g) (e : GEdge)
    (he : e ∈ edgesOf g u) :
    PathCost g a e.to_station_id (vs ++ [e.to_station_id]) (c + e.weight) := by
  induction h with
  | single v hv =>
    have := PathCost.step v e.to_station_id [e.to_station_id] 0 e he
      (PathCost.single e.to_station_id (hclosed v e he))
    simpa using this
  | step w b vs' c' e' he' tail ih =>
    have := PathCost.step w e.to_station_id (vs' ++ [e.to_station_id]) (c' + e.weight) e' he'
      (ih he)
    rw [show e'.weight + (c' + e.weight) = e'.weight + c' + e.weight from by omega] at this
    simpa using this

theorem PathCost.split_at {g : MGraph} {a b x : String} {vs : List String} {c : Nat}
    (h : PathCost g a b vs c) (hx : x ∈ vs) :
    ∃ vs1 c1 vs2 c2, PathCost g a x vs1 c1 ∧ PathCost g x b vs2 c2 ∧ c1 + c2 = c := by
  induction h with
  | single v hv =>
    simp only [List.mem_singleton] at hx
    subst hx
    exact ⟨[x], 0, [x], 0, PathCost.single x hv, PathCost.single x hv, rfl⟩
  | step u b vs' c' e he tail ih =>
    rcases List.mem_cons.mp hx with h1 | h1
    · subst h1
      refine ⟨[x], 0, x :: vs', e.weight + c', PathCost.single x (mem_nodeIds_of_edge he),
        PathCost.step x b vs' c' e he tail, by omega⟩
    · obtain ⟨vs1, c1, vs2, c2, hp1, hp2, hsum⟩ := ih h1
      refine ⟨u :: vs1, e.weight + c1, vs2, c2, PathCost.step u x vs1 c1 e he hp1, hp2, by omega⟩

theorem cover_aux {g : MGraph} {startId : String} {dist : String → Option Nat}
    {prev : String → Option String} {visited : List String}
    {pq : List (Nat × String)}
    (hinv : DijkInv g startId dist prev visited pq) :
    ∀ (src v : String) (vs : List String) (c : Nat), PathCost g src v vs c →
      v ∉ visited → ∀ b, dist src = some b →
      ∃ dz z, (dz, z) ∈ pq ∧ dz ≤ b + c := by
  intro src v vs c hp
  induction hp with
  | single w hw =>
    intro hv b hb
    exact ⟨b, w, hinv.unvisited_pq w hv b hb, by omega⟩
  | step u bb vs' c' e he tail ih =>
    intro hv b hb
    by_cases hu : u ∈ visited
    · obtain ⟨du, dv, hdu, hdv, hle⟩ := hinv.relaxed u hu e he
      have hdub : du = b := by
        rw [hdu] at hb
        exact Option.some.inj hb
      obtain ⟨dz, z, hz, hzle⟩ := ih hv dv hdv
      exact ⟨dz, z, hz, by omega⟩
    · exact ⟨b, u, hinv.unvisited_pq u hu b hb, by omega⟩

theorem popped_shortest {g : MGraph} {startId : String} {dist : String → Option Nat}
    {prev : String → Option String} {visited : List String}
    {pq rest : List (Nat × String)} {d : Nat} {u : String}
    (hinv : DijkInv g startId dist prev visited pq)
    (hpop : popMin pq = some ((d, u), rest)) (hu : u ∉ visited) :
    dist u = some d ∧ IsShortestW g startId u d := by
  obtain ⟨hmem, hrest, hmin⟩ := popMin_some_facts hpop
  obtain ⟨du, hdu, hdule⟩ := hinv.pq_dist d u hmem
  have hduq := hinv.unvisited_pq u hu du hdu
  have hled : d ≤ du := hmin (du, u) hduq
  have hdeq : du = d := Nat.le_antisymm hdule hled
  rw [hdeq] at hdu
  refine ⟨hdu, ⟨hinv.dist_sound u d hdu, ?_⟩⟩
  intro vs c hp
  obtain ⟨dz, z, hz, hzle⟩ := cover_aux hinv startId u vs c hp hu 0 hinv.dist_start
  have := hmin (dz, z) hz
  omega

theorem post_of_empty {g : MGraph} {startId endId : String}
    {dist : String → Option Nat} {prev : String → Option String}
    {visited : List String}
    (hinv : DijkInv g startId dist prev visited []) :
    DijkPost g startId endId dist prev := by
  refine ⟨hinv.dist_start, hinv.dist_sound, ?_, hinv.prev_some, ?_, ?_⟩
  · intro v u hp
    exact (hinv.prev_link v u hp).2
  · intro d hd
    by_cases hv : endId ∈ visited
    · obtain ⟨d', hd', hshort⟩ := hinv.visited_short endId hv
      rw [hd] at hd'
      rw [Option.some.inj hd']
      exact hshort
    · exact absurd (hinv.unvisited_pq endId hv d hd) (List.not_mem_nil _)
  · intro hnone vs c hp
    by_cases hv : endId ∈ visited
    · obtain ⟨d', hd', _⟩ := hinv.visited_short endId hv
      rw [hnone] at hd'
      exact absurd hd' (by simp)
    · obtain ⟨dz, z, hz, _⟩ := cover_aux hinv startId endId vs c hp hv 0 hinv.dist_start
      exact absurd hz (List.not_mem_nil _)

/-- State invariant threaded through one relaxation pass (the popped node `u`
has settled shortest distance `du` and is already marked visited). -/
structure RInv (g : MGraph) (startId u : String) (du : Nat)
    (visited' : List String) (dist : String → Option Nat)
    (prev : String → Option String) (pq : List (Nat × String)) : Prop where
  dist_u : dist u = some du
  dist_start : dist startId = some 0
  prev_start : prev startId = none
  dist_sound : ∀ v d, dist v = some d → ∃ vs, PathCost g startId v vs d
  visited_short : ∀ w ∈ visited', ∃ d, dist w = some d ∧ IsShortestW g startId w d
  pq_dist : ∀ d v, (d, v) ∈ pq → ∃ dv, dist v = some dv ∧ dv ≤ d
  unvisited_pq : ∀ v, v ∉ visited' → ∀ d, dist v = some d → (d, v) ∈ pq
  prev_link : ∀ v w, prev v = some w → w ∈ visited' ∧ ∃ e ∈ edgesOf g w,
    e.to_station_id = v ∧ ∃ dw dv, dist w = some dw ∧ dist v = some dv ∧
      dv = dw + e.weight
  prev_some : ∀ v d, dist v = some d → v ≠ startId → ∃ w, prev v = some w

theorem relax_update_rinv {g : MGraph} {startId u : String} {du : Nat}
    {visited' : List String} {dist : String → Option Nat}
    {prev : String → Option String} {pq : List (Nat × String)}
    (hclosed : ClosedGraph g) (hu : u ∈ visited') {e : GEdge}
    (he : e ∈ edgesOf g u) (hnv : e.to_station_id ∉ visited')
    (himp : dist e.to_station_id = none ∨
      ∃ dv, dist e.to_station_id = some dv ∧ du + e.weight < dv)
    (hinv : RInv g startId u du visited' dist prev pq) :
    RInv g startId u du visited'
      (fun v => if v = e.to_station_id then some (du + e.weight) else dist v)
      (fun v => if v = e.to_station_id then some u else prev v)
      ((du + e.weight, e.to_station_id) :: pq) ∧
    (∀ w ∈ visited',
      (fun v => if v = e.to_station_id then some (du + e.weight) else dist v) w = dist w) ∧
    (∀ v dv, dist v = some dv →
      ∃ dv', (fun v => if v = e.to_station_id then some (du + e.weight) else dist v) v =
        some dv' ∧ dv' ≤ dv) := by
  have hstne : startId ≠ e.to_station_id := by
    intro hc
    rcases himp with h1 | ⟨dv, h1, h2⟩
    · rw [← hc, hinv.dist_start] at h1
      exact absurd h1 (by simp)
    · rw [← hc, hinv.dist_start] at h1
      have : dv = 0 := (Option.some.inj h1).symm
      omega
  have hune : u ≠ e.to_station_id := fun hc => hnv (hc ▸ hu)
  have hfrozen : ∀ w ∈ visited',
      (fun v => if v = e.to_station_id then some (du + e.weight) else dist v) w = dist w := by
    intro w hw
    have : w ≠ e.to_station_id := fun hc => hnv (hc ▸ hw)
    simp only [if_neg this]
  have hdec : ∀ v dv, dist v = some dv →
      ∃ dv', (fun v => if v = e.to_station_id then some (du + e.weight) else dist v) v =
        some dv' ∧ dv' ≤ dv := by
    intro v dv hv
    by_cases hve : v = e.to_station_id
    · subst hve
      rcases himp with h1 | ⟨dv0, h1, h2⟩
      · rw [hv] at h1
        exact absurd h1 (by simp)
      · rw [hv] at h1
        have : dv0 = dv := by
          have := Option.some.inj h1
          omega
        refine ⟨du + e.weight, by simp, by omega⟩
    · exact ⟨dv, by simp only [if_neg hve]; exact hv, Nat.le_refl dv⟩
  refine ⟨⟨?_, ?_, ?_, ?_, ?_, ?_, ?_, ?_, ?_⟩, hfrozen, hdec⟩
  · simp only [if_neg hune]
    exact hinv.dist_u
  · simp only [if_neg hstne]
    exact hinv.dist_start
  · simp only [if_neg hstne]
    exact hinv.prev_start
  · intro v d hv
    by_cases hve : v = e.to_station_id
    · subst hve
      simp only [if_pos rfl] at hv
      have hd : d = du + e.weight := (Option.some.inj hv).symm
      obtain ⟨vs, hvs⟩ := hinv.dist_sound u du hinv.dist_u
      subst hd
      exact ⟨vs ++ [e.to_station_id], hvs.append_edge hclosed e he⟩
    · simp only [if_neg hve] at hv
      exact hinv.dist_sound v d hv
  · intro w hw
    obtain ⟨d, hd, hshort⟩ := hinv.visited_short w hw
    have hwne : w ≠ e.to_station_id := fun hc => hnv (hc ▸ hw)
    refine ⟨d, ?_, hshort⟩
    simp only [if_neg hwne]
    exact hd
  · intro d v hdv
    rcases List.mem_cons.mp hdv with h1 | h1
    · have hv : v = e.to_station_id := congrArg Prod.snd h1
      have hd : d = du + e.weight := congrArg Prod.fst h1
      subst hv
      exact ⟨du + e.weight, by simp, by omega⟩
    · obtain ⟨dv, hdist, hle⟩ := hinv.pq_dist d v h1
      obtain ⟨dv', hdist', hle'⟩ := hdec v dv hdist
      exact ⟨dv', hdist', by omega⟩
  · intro v hvnv d hv
    by_cases hve : v = e.to_station_id
    · subst hve
      simp only [if_pos rfl] at hv
      have : d = du + e.weight := (Option.some.inj hv).symm
      subst this
      exact List.mem_cons_self _ _
    · simp only [if_neg hve] at hv
      exact List.mem_cons.mpr (Or.inr (hinv.unvisited_pq v hvnv d hv))
  · intro v w hpv
    by_cases hve : v = e.to_station_id
    · subst hve
      simp only [if_pos rfl] at hpv
      have hw : w = u := (Option.some.inj hpv).symm
      subst hw
      refine ⟨hu, e, he, rfl, du, du + e.weight, ?_, by simp, rfl⟩
      simp only [if_neg hune]
      exact hinv.dist_u
    · simp only [if_neg hve] at hpv
      obtain ⟨hwv, e', he', hto, dw, dv, hdw, hdv, heq⟩ := hinv.prev_link v w hpv
      have hwne : w ≠ e.to_station_id := fun hc => hnv (hc ▸ hwv)
      refine ⟨hwv, e', he', hto, dw, dv, ?_, ?_, heq⟩
      · simp only [if_neg hwne]
        exact hdw
      · simp only [if_neg hve]
        exact hdv
  · intro v d hv hvst
    by_cases hve : v = e.to_station_id
    · subst hve
      exact ⟨u, by simp⟩
    · simp only [if_neg hve] at hv ⊢
      exact hinv.prev_some v d hv hvst

theorem relax_edges_cons_skip {e : GEdge} {es : List GEdge} {d : Nat} {u : String}
    {visited : List String} {dist : String → Option Nat}
    {prev : String → Option String} {pq : List (Nat × String)}
    (hv : e.to_station_id ∈ visited) :
    relax_edges (e :: es) d u visited dist prev pq =
      relax_edges es d u visited dist prev pq := by
  simp only [relax_edges, if_pos hv]

theorem relax_edges_cons_none {e : GEdge} {es : List GEdge} {d : Nat} {u : String}
    {visited : List String} {dist : String → Option Nat}
    {prev : String → Option String} {pq : List (Nat × String)}
    (hv : e.to_station_id ∉ visited) (hde : dist e.to_station_id = none) :
    relax_edges (e :: es) d u visited dist prev pq =
      relax_edges es d u visited
        (fun v => if v = e.to_station_id then some (d + e.weight) else dist v)
        (fun v => if v = e.to_station_id then some u else prev v)
        ((d + e.weight, e.to_station_id) :: pq) := by
  simp only [relax_edges, hde, if_neg hv]

theorem relax_edges_cons_lt {e : GEdge} {es : List GEdge} {d : Nat} {u : String}
    {visited : List String} {dist : String → Option Nat}
    {prev : String → Option String} {pq : List (Nat × String)} {dv : Nat}
    (hv : e.to_station_id ∉ visited) (hde : dist e.to_station_id = some dv)
    (hlt : d + e.weight < dv) :
    relax_edges (e :: es) d u visited dist prev pq =
      relax_edges es d u visited
        (fun v => if v = e.to_station_id then some (d + e.weight) else dist v)
        (fun v => if v = e.to_station_id then some u else prev v)
        ((d + e.weight, e.to_station_id) :: pq) := by
  simp only [relax_edges, hde, if_neg hv, hlt, if_true]

theorem relax_edges_cons_ge {e : GEdge} {es : List GEdge} {d : Nat} {u : String}
    {visited : List String} {dist : String → Option Nat}
    {prev : String → Option String} {pq : List (Nat × String)} {dv : Nat}
    (hv : e.to_station_id ∉ visited) (hde : dist e.to_station_id = some dv)
    (hge : ¬d + e.weight < dv) :
    relax_edges (e :: es) d u visited dist prev pq =
      relax_edges es d u visited dist prev pq := by
  simp only [relax_edges, hde, if_neg hv, hge, if_false]

theorem relax_edges_spec {g : MGraph} {startId u : String} {du : Nat}
    {visited' : List String}
    (hclosed : ClosedGraph g) (hu : u ∈ visited')
    (hus : IsShortestW g startId u du) :
    ∀ (es : List GEdge) (dist : String → Option Nat)
      (prev : String → Option String) (pq : List (Nat × String)),
      (∀ e ∈ es, e ∈ edgesOf g u) →
      RInv g startId u du visited' dist prev pq →
      RInv g startId u du visited'
        (relax_edges es du u visited' dist prev pq).1
        (relax_edges es du u visited' dist prev pq).2.1
        (relax_edges es du u visited' dist prev pq).2.2 ∧
      (∀ w ∈ visited', (relax_edges es du u visited' dist prev pq).1 w = dist w) ∧
      (∀ v dv, dist v = some dv →
        ∃ dv', (relax_edges es du u visited' dist prev pq).1 v = some dv' ∧ dv' ≤ dv) ∧
      (∀ e ∈ es, ∃ dv, (relax_edges es du u visited' dist prev pq).1 e.to_station_id =
        some dv ∧ dv ≤ du + e.weight) ∧
      (relax_edges es du u visited' dist prev pq).2.2.length ≤ pq.length + es.length := by
  intro es
  induction es with
  | nil =>
    intro dist prev pq _ hinv
    exact ⟨hinv, fun w _ => rfl, fun v dv h => ⟨dv, h, Nat.le_refl dv⟩, by simp,
      by simp [relax_edges]⟩
  | cons e es ih =>
    intro dist prev pq hes hinv
    have hee : e ∈ edgesOf g u := hes e (List.mem_cons_self e es)
    have hest : ∀ e' ∈ es, e' ∈ edgesOf g u :=
      fun e' he' => hes e' (List.mem_cons.mpr (Or.inr he'))
    by_cases hv : e.to_station_id ∈ visited'
    · rw [relax_edges_cons_skip hv]
      obtain ⟨h1, h2, h3, h4, h5⟩ := ih dist prev pq hest hinv
      refine ⟨h1, h2, h3, ?_, Nat.le_trans h5 (by simp)⟩
      intro e' he'
      rcases List.mem_cons.mp he' with h6 | h6
      · subst h6
        obtain ⟨d', hd', hshort⟩ := hinv.visited_short e'.to_station_id hv
        obtain ⟨p, hp⟩ := hus.1
        have hpath := hp.append_edge hclosed e' hee
        have hle := hshort.2 _ _ hpath
        refine ⟨d', ?_, hle⟩
        rw [h2 e'.to_station_id hv]
        exact hd'
      · exact h4 e' h6
    · rcases hde : dist e.to_station_id with _ | dv
      · rw [relax_edges_cons_none hv hde]
        obtain ⟨hinv1, hfr1, hdec1⟩ := relax_update_rinv hclosed hu hee hv (Or.inl hde) hinv
        obtain ⟨h1, h2, h3, h4, h5⟩ := ih _ _ _ hest hinv1
        refine ⟨h1, ?_, ?_, ?_, ?_⟩
        · intro w hw
          rw [h2 w hw]
          exact hfr1 w hw
        · intro v dv0 hv0
          obtain ⟨dv1, hv1, hle1⟩ := hdec1 v dv0 hv0
          obtain ⟨dv2, hv2, hle2⟩ := h3 v dv1 hv1
          exact ⟨dv2, hv2, by omega⟩
        · intro e' he'
          rcases List.mem_cons.mp he' with h6 | h6
          · subst h6
            have hd1 : (fun v => if v = e'.to_station_id then some (du + e'.weight)
                else dist v) e'.to_station_id = some (du + e'.weight) := by simp
            exact h3 _ _ hd1
          · exact h4 e' h6
        · refine Nat.le_trans h5 (by simp; omega)
      · by_cases hlt : du + e.weight < dv
        · rw [relax_edges_cons_lt hv hde hlt]
          obtain ⟨hinv1, hfr1, hdec1⟩ := relax_update_rinv hclosed hu hee hv
            (Or.inr ⟨dv, hde, hlt⟩) hinv
          obtain ⟨h1, h2, h3, h4, h5⟩ := ih _ _ _ hest hinv1
          refine ⟨h1, ?_, ?_, ?_, ?_⟩
          · intro w hw
            rw [h2 w hw]
            exact hfr1 w hw
          · intro v dv0 hv0
            obtain ⟨dv1, hv1, hle1⟩ := hdec1 v dv0 hv0
            obtain ⟨dv2, hv2, hle2⟩ := h3 v dv1 hv1
            exact ⟨dv2, hv2, by omega⟩
          · intro e' he'
            rcases List.mem_cons.mp he' with h6 | h6
            · subst h6
              have hd1 : (fun v => if v = e'.to_station_id then some (du + e'.weight)
                  else dist v) e'.to_station_id = some (du + e'.weight) := by simp
              exact h3 _ _ hd1
            · exact h4 e' h6
          · refine Nat.le_trans h5 (by simp; omega)
        · rw [relax_edges_cons_ge hv hde hlt]
          obtain ⟨h1, h2, h3, h4, h5⟩ := ih dist prev pq hest hinv
          refine ⟨h1, h2, h3, ?_, Nat.le_trans h5 (by simp)⟩
          intro e' he'
          rcases List.mem_cons.mp he' with h6 | h6
          · subst h6
            obtain ⟨dv2, hv2, hle2⟩ := h3 _ _ hde
            exact ⟨dv2, hv2, by omega⟩
          · exact h4 e' h6

theorem edgesOf_length_le_edgeTotal (g : MGraph) (u : String) :
    (edgesOf g u).length ≤ edgeTotal g := by
  induction g with
  | nil => simp [edgesOf, edgeTotal]
  | cons p rest ih =>
    by_cases hpu : p.1 = u
    · rw [edgesOf, if_pos hpu]
      simp only [edgeTotal, List.map_cons, List.sum_cons]
      omega
    · rw [edgesOf, if_neg hpu]
      refine Nat.le_trans ih ?_
      simp only [edgeTotal, List.map_cons, List.sum_cons]
      omega

theorem countP_succ_le {α : Type} (l : List α) (p q : α → Bool)
    (himp : ∀ a, p a = true → q a = true) (u : α) (hu : u ∈ l)
    (hpu : p u = false) (hqu : q u = true) :
    l.countP p + 1 ≤ l.countP q := by
  induction l with
  | nil => exact absurd hu (List.not_mem_nil u)
  | cons x t ih =>
    rw [List.countP_cons, List.countP_cons]
    rcases List.mem_cons.mp hu with h1 | h1
    · subst h1
      rw [hpu, hqu]
      have := List.countP_mono_left (l := t) (p := p) (q := q) (fun a _ => himp a)
      simp only [Bool.false_eq_true, if_false, if_true]
      omega
    · have := ih h1
      by_cases hx : p x = true
      · rw [hx, himp x hx]
        omega
      · rw [Bool.not_eq_true] at hx
        rw [hx]
        by_cases hqx : q x = true
        · rw [hqx]
          simp only [Bool.false_eq_true, if_false, if_true]
          omega
        · rw [Bool.not_eq_true] at hqx
          rw [hqx]
          simp only [Bool.false_eq_true, if_false]
          omega

theorem dijkstra_loop_pop_skip {g : MGraph} {endId : String} {fuel : Nat}
    {dist : String → Option Nat} {prev : String → Option String}
    {visited : List String} {pq rest : List (Nat × String)} {d : Nat} {u : String}
    (hpop : popMin pq = some ((d, u), rest)) (hu : u ∈ visited) :
    dijkstra_loop g endId (fuel + 1) dist prev visited pq =
      dijkstra_loop g endId fuel dist prev visited rest := by
  simp only [dijkstra_loop, hpop]
  rw [if_pos hu]

theorem dijkstra_loop_pop_break {g : MGraph} {endId : String} {fuel : Nat}
    {dist : String → Option Nat} {prev : String → Option String}
    {visited : List String} {pq rest : List (Nat × String)} {d : Nat} {u : String}
    (hpop : popMin pq = some ((d, u), rest)) (hu : u ∉ visited) (hend : u = endId) :
    dijkstra_loop g endId (fuel + 1) dist prev visited pq = (dist, prev) := by
  simp only [dijkstra_loop, hpop]
  rw [if_neg hu, if_pos hend]

theorem dijkstra_loop_pop_visit {g : MGraph} {endId : String} {fuel : Nat}
    {dist : String → Option Nat} {prev : String → Option String}
    {visited : List String} {pq rest : List (Nat × String)} {d : Nat} {u : String}
    (hpop : popMin pq = some ((d, u), rest)) (hu : u ∉ visited) (hne : u ≠ endId) :
    dijkstra_loop g endId (fuel + 1) dist prev visited pq =
      dijkstra_loop g endId fuel
        (relax_edges (edgesOf g u) d u (u :: visited) dist prev rest).1
        (relax_edges (edgesOf g u) d u (u :: visited) dist prev rest).2.1
        (u :: visited)
        (relax_edges (edgesOf g u) d u (u :: visited) dist prev rest).2.2 := by
  simp only [dijkstra_loop, hpop]
  rw [if_neg hu, if_neg hne]

theorem dijkstra_loop_post {g : MGraph} {startId endId : String}
    (hclosed : ClosedGraph g) :
    ∀ (fuel : Nat) (dist : String → Option Nat) (prev : String → Option String)
      (visited : List String) (pq : List (Nat × String)),
      DijkInv g startId dist prev visited pq →
      workM g visited pq ≤ fuel →
      DijkPost g startId endId
        (dijkstra_loop g endId fuel dist prev visited pq).1
        (dijkstra_loop g endId fuel dist prev visited pq).2 := by
  intro fuel
  induction fuel with
  | zero =>
    intro dist prev visited pq hinv hw
    have hpq : pq = [] := by
      unfold workM at hw
      have : pq.length = 0 := by omega
      exact List.length_eq_zero.mp this
    subst hpq
    exact post_of_empty hinv
  | succ fuel ih =>
    intro dist prev visited pq hinv hw
    rcases hpop : popMin pq with _ | ⟨⟨d, u⟩, rest⟩
    · have hpq := (popMin_none_iff pq).mp hpop
      subst hpq
      rw [dijkstra_loop]
      simp only [popMin]
      exact post_of_empty hinv
    · obtain ⟨hmem, hrest, hmin⟩ := popMin_some_facts hpop
      have hplen : pq.length = rest.length + 1 := by
        rw [hrest, List.length_erase_of_mem hmem]
        have : 0 < pq.length := List.length_pos.mpr (List.ne_nil_of_mem hmem)
        omega
      by_cases hu : u ∈ visited
      · -- stale entry: skip
        rw [dijkstra_loop_pop_skip hpop hu]
        have hinv' : DijkInv g startId dist prev visited rest := by
          refine ⟨hinv.dist_start, hinv.prev_start, hinv.dist_sound, hinv.visited_short,
            ?_, ?_, hinv.relaxed, hinv.prev_link, hinv.prev_some⟩
          · intro dd v hdd
            rw [hrest] at hdd
            exact hinv.pq_dist dd v (List.erase_subset _ _ hdd)
          · intro v hv dd hdd
            have hne : (dd, v) ≠ (d, u) := by
              intro hc
              have : v = u := congrArg Prod.snd hc
              exact hv (this ▸ hu)
            rw [hrest]
            exact (List.mem_erase_of_ne hne).mpr (hinv.unvisited_pq v hv dd hdd)
        refine ih dist prev visited rest hinv' ?_
        unfold workM at hw ⊢
        omega
      · rcases Decidable.em (u = endId) with hend | hne
        · -- target popped: stop
          rw [dijkstra_loop_pop_break hpop hu hend]
          obtain ⟨hdu, hshort⟩ := popped_shortest hinv hpop hu
          subst hend
          show DijkPost g startId _ dist prev
          refine ⟨hinv.dist_start, hinv.dist_sound, ?_, hinv.prev_some, ?_, ?_⟩
          · intro v w hp
            exact (hinv.prev_link v w hp).2
          · intro d' hd'
            rw [hdu] at hd'
            rw [← Option.some.inj hd']
            exact hshort
          · intro hnone
            rw [hdu] at hnone
            exact absurd hnone (by simp)
        · -- visit u and relax its edges
          obtain ⟨hdu, hshort⟩ := popped_shortest hinv hpop hu
          have huv : u ∈ u :: visited := List.mem_cons_self u visited
          have hrinv : RInv g startId u d (u :: visited) dist prev rest := by
            refine ⟨hdu, hinv.dist_start, hinv.prev_start, hinv.dist_sound, ?_, ?_, ?_, ?_,
              hinv.prev_some⟩
            · intro w hw'
              rcases List.mem_cons.mp hw' with h1 | h1
              · subst h1
                exact ⟨d, hdu, hshort⟩
              · exact hinv.visited_short w h1
            · intro dd v hdd
              rw [hrest] at hdd
              exact hinv.pq_dist dd v (List.erase_subset _ _ hdd)
            · intro v hv dd hdd
              have hvv : v ∉ visited := fun hc => hv (List.mem_cons.mpr (Or.inr hc))
              have hvu : v ≠ u := fun hc => hv (hc ▸ huv)
              have hne2 : (dd, v) ≠ (d, u) := by
                intro hc
                exact hvu (congrArg Prod.snd hc)
              rw [hrest]
              exact (List.mem_erase_of_ne hne2).mpr (hinv.unvisited_pq v hvv dd hdd)
            · intro v w hp
              obtain ⟨hwv, rest'⟩ := hinv.prev_link v w hp
              exact ⟨List.mem_cons.mpr (Or.inr hwv), rest'⟩
          obtain ⟨hinv1, hfr, hdec, hrelax_u, hlen⟩ :=
            relax_edges_spec hclosed huv hshort (edgesOf g u) dist prev rest
              (fun e he => he) hrinv
          rw [dijkstra_loop_pop_visit hpop hu hne]
          have hinv2 : DijkInv g startId
              (relax_edges (edgesOf g u) d u (u :: visited) dist prev rest).1
              (relax_edges (edgesOf g u) d u (u :: visited) dist prev rest).2.1
              (u :: visited)
              (relax_edges (edgesOf g u) d u (u :: visited) dist prev rest).2.2 := by
            refine ⟨hinv1.dist_start, hinv1.prev_start, hinv1.dist_sound,
              hinv1.visited_short, hinv1.pq_dist, hinv1.unvisited_pq, ?_,
              hinv1.prev_link, hinv1.prev_some⟩
            intro w hw' e he
            rcases List.mem_cons.mp hw' with h1 | h1
            · subst h1
              obtain ⟨dv, hdv, hdvle⟩ := hrelax_u e he
              exact ⟨d, dv, hinv1.dist_u, hdv, hdvle⟩
            · obtain ⟨dw, dv, hdw, hdv, hdvle⟩ := hinv.relaxed w h1 e he
              obtain ⟨dv', hdv', hdvle'⟩ := hdec e.to_station_id dv hdv
              refine ⟨dw, dv', ?_, hdv', by omega⟩
              rw [hfr w (List.mem_cons.mpr (Or.inr h1))]
              exact hdw
          refine ih _ _ _ _ hinv2 ?_
          -- fuel accounting
          have humem : u ∈ nodeIds g := by
            obtain ⟨vs, hvs⟩ := hinv.dist_sound u d hdu
            exact hvs.dst_mem
          have hcnt : ((nodeIds g).filter (fun v => decide (v ∉ u :: visited))).length + 1 ≤
              ((nodeIds g).filter (fun v => decide (v ∉ visited))).length := by
            rw [← List.countP_eq_length_filter, ← List.countP_eq_length_filter]
            refine countP_succ_le (nodeIds g) _ _ ?_ u humem ?_ ?_
            · intro a ha
              rw [decide_eq_true_eq] at ha ⊢
              exact fun hc => ha (List.mem_cons.mpr (Or.inr hc))
            · rw [decide_eq_false_iff_not]
              simp
            · rw [decide_eq_true_eq]
              exact hu
          have hdeg : (edgesOf g u).length ≤ edgeTotal g := edgesOf_length_le_edgeTotal g u
          unfold workM at hw ⊢
          obtain ⟨k, hk⟩ : ∃ k, ((nodeIds g).filter (fun v => decide (v ∉ visited))).length
              = k + 1 :=
            ⟨((nodeIds g).filter (fun v => decide (v ∉ visited))).length - 1, by omega⟩
          rw [hk] at hw
          rw [Nat.succ_mul] at hw
          have hmul : ((nodeIds g).filter (fun v => decide (v ∉ u :: visited))).length *
              (edgeTotal g + 1) ≤ k * (edgeTotal g + 1) :=
            Nat.mul_le_mul_right _ (by omega)
          have hlen2 := hlen
          generalize hM1 : ((nodeIds g).filter
            (fun v => decide (v ∉ u :: visited))).length * (edgeTotal g + 1) = M1 at hmul ⊢
          generalize hM2 : k * (edgeTotal g + 1) = M2 at hmul hw
          omega
theorem edgesOf_mem_assoc {g : MGraph} {u : String} {e : GEdge}
    (he : e ∈ edgesOf g u) : ∃ p ∈ g, p.1 = u ∧ e ∈ p.2 := by
  induction g with
  | nil => simp [edgesOf] at he
  | cons p rest ih =>
    rw [edgesOf] at he
    by_cases hp : p.1 = u
    · rw [if_pos hp] at he
      exact ⟨p, List.mem_cons_self p rest, hp, he⟩
    · rw [if_neg hp] at he
      obtain ⟨q, hq, hq1, hq2⟩ := ih he
      exact ⟨q, List.mem_cons_of_mem p hq, hq1, hq2⟩

theorem closedGraph_of_entries {g : MGraph}
    (h : ∀ p ∈ g, ∀ e ∈ p.2, e.to_station_id ∈ nodeIds g) : ClosedGraph g := by
  intro u e he
  obtain ⟨p, hp, _, hep⟩ := edgesOf_mem_assoc he
  exact h p hp e hep

theorem positiveW_of_entries {g : MGraph}
    (h : ∀ p ∈ g, ∀ e ∈ p.2, 1 ≤ e.weight) : PositiveW g := by
  intro u e he
  obtain ⟨p, hp, _, hep⟩ := edgesOf_mem_assoc he
  exact h p hp e hep

theorem prev_chain_path {g : MGraph} {startId endId : String}
    {dist : String → Option Nat} {prev : String → Option String}
    (hpos : PositiveW g) (hclosed : ClosedGraph g)
    (hpost : DijkPost g startId endId dist prev) :
    ∀ fuel v d, dist v = some d → d ≤ fuel →
      PathCost g startId v (prev_chain prev fuel v).reverse d := by
  intro fuel
  induction fuel with
  | zero =>
    intro v d hdv hd
    have hd0 : d = 0 := Nat.le_zero.mp hd
    subst hd0
    by_cases hv : v = startId
    · subst hv
      obtain ⟨vs, hvs⟩ := hpost.dist_sound v 0 hdv
      simp only [prev_chain, List.reverse_cons, List.reverse_nil, List.nil_append]
      exact PathCost.single v hvs.src_mem
    · exfalso
      obtain ⟨u, hu⟩ := hpost.prev_some v 0 hdv hv
      obtain ⟨e, he, hev, du, dv, hdu, hdv2, heq⟩ := hpost.prev_link v u hu
      have hw := hpos u e he
      rw [hdv] at hdv2
      have := Option.some.inj hdv2
      omega
  | succ fuel ih =>
    intro v d hdv hd
    by_cases hv : v = startId
    · subst hv
      have hd0 : d = 0 := by
        rw [hpost.dist_start] at hdv
        exact (Option.some.inj hdv).symm
      subst hd0
      have hpn : prev v = none := by
        rcases hp : prev v with _ | u
        · rfl
        · exfalso
          obtain ⟨e, he, hev, du, dv, hdu, hdv2, heq⟩ := hpost.prev_link v u hp
          have hw := hpos u e he
          rw [hpost.dist_start] at hdv2
          have := Option.some.inj hdv2
          omega
      obtain ⟨vs, hvs⟩ := hpost.dist_sound v 0 hdv
      simp only [prev_chain, hpn, List.reverse_cons, List.reverse_nil, List.nil_append]
      exact PathCost.single v hvs.src_mem
    · obtain ⟨u, hu⟩ := hpost.prev_some v d hdv hv
      obtain ⟨e, he, hev, du, dv, hdu, hdv2, heq⟩ := hpost.prev_link v u hu
      have hw := hpos u e he
      rw [hdv] at hdv2
      have hdvd : d = dv := Option.some.inj hdv2
      have hdule : du ≤ fuel := by omega
      have hpu := ih u du hdu hdule
      have happ := hpu.append_edge hclosed e he
      rw [hev] at happ
      simp only [prev_chain, hu, List.reverse_cons]
      rw [show d = du + e.weight from by omega]
      exact happ

theorem dijkstra_init_inv (g : MGraph) (startId : String) (ha : startId ∈ nodeIds g) :
    DijkInv g startId (fun v => if v = startId then some 0 else none)
      (fun _ => none) [] [(0, startId)] := by
  refine ⟨by simp, rfl, ?_, ?_, ?_, ?_, ?_, ?_, ?_⟩
  · intro v d hdv
    by_cases hv : v = startId
    · subst hv
      rw [if_pos rfl] at hdv
      obtain rfl : (0 : Nat) = d := Option.some.inj hdv
      exact ⟨[v], PathCost.single v ha⟩
    · rw [if_neg hv] at hdv
      exact absurd hdv (by simp)
  · intro u hu
    exact absurd hu (List.not_mem_nil u)
  · intro d v hdv
    rw [List.mem_singleton] at hdv
    obtain ⟨rfl, rfl⟩ := Prod.mk.inj hdv
    exact ⟨0, by simp, Nat.le_refl 0⟩
  · intro v hv d hdv
    by_cases h : v = startId
    · subst h
      rw [if_pos rfl] at hdv
      have h0 : (0 : Nat) = d := Option.some.inj hdv
      rw [List.mem_singleton, ← h0]
    · rw [if_neg h] at hdv
      exact absurd hdv (by simp)
  · intro u hu
    exact absurd hu (List.not_mem_nil u)
  · intro v u hvu
    exact absurd hvu (by simp)
  · intro v d hdv hvne
    by_cases h : v = startId
    · exact absurd h hvne
    · rw [if_neg h] at hdv
      exact absurd hdv (by simp)

theorem find_shortest_path_post (g : MGraph) (a b : String)
    (hclosed : ClosedGraph g) (ha : a ∈ nodeIds g) :
    DijkPost g a b
      (dijkstra_loop g b ((nodeIds g).length * (edgeTotal g + 1) + 2)
        (fun v => if v = a then some 0 else none) (fun _ => none) [] [(0, a)]).1
      (dijkstra_loop g b ((nodeIds g).length * (edgeTotal g + 1) + 2)
        (fun v => if v = a then some 0 else none) (fun _ => none) [] [(0, a)]).2 := by
  refine dijkstra_loop_post hclosed _ _ _ _ _ (dijkstra_init_inv g a ha) ?_
  unfold workM
  have hfl : ((nodeIds g).filter (fun v => decide (v ∉ ([] : List String)))).length ≤
      (nodeIds g).length := List.length_filter_le _ _
  have h2 : ((nodeIds g).filter (fun v => decide (v ∉ ([] : List String)))).length *
      (edgeTotal g + 1) ≤ (nodeIds g).length * (edgeTotal g + 1) :=
    Nat.mul_le_mul_right _ hfl
  simp only [List.length_singleton]
  generalize hP1 : ((nodeIds g).filter
    (fun v => decide (v ∉ ([] : List String)))).length * (edgeTotal g + 1) = P1 at h2 ⊢
  generalize hP2 : (nodeIds g).length * (edgeTotal g + 1) = P2 at h2 ⊢
  omega
theorem find_shortest_path_some_spec {g : MGraph} {a b : String}
    (hclosed : ClosedGraph g) (hpos : PositiveW g) :
    ∀ vs w, find_shortest_path g a b = some (vs, w) →
      PathCost g a b vs w ∧ ∀ vs2 c, PathCost g a b vs2 c → w ≤ c := by
  intro vs w h
  unfold find_shortest_path at h
  by_cases hab : a ∈ nodeIds g ∧ b ∈ nodeIds g
  · rw [if_pos hab] at h
    have hpost := find_shortest_path_post g a b hclosed hab.1
    generalize hsp : dijkstra_loop g b ((nodeIds g).length * (edgeTotal g + 1) + 2)
        (fun v => if v = a then some 0 else none) (fun _ => none) [] [(0, a)] = s at h hpost
    obtain ⟨dist, prev⟩ := s
    have hpost2 : DijkPost g a b dist prev := hpost
    dsimp only at h
    rcases hdb : dist b with _ | d
    · rw [hdb] at h
      exact absurd h (by simp)
    · rw [hdb] at h
      dsimp only at h
      obtain ⟨h1, h2⟩ := Prod.mk.inj (Option.some.inj h)
      subst h2
      constructor
      · rw [← h1]
        exact prev_chain_path hpos hclosed hpost2 d b d hdb (Nat.le_refl d)
      · intro vs2 c hc
        exact (hpost2.end_short d hdb).2 vs2 c hc
  · rw [if_neg hab] at h
    exact absurd h (by simp)

theorem find_shortest_path_none_iff {g : MGraph} {a b : String}
    (hclosed : ClosedGraph g) :
    find_shortest_path g a b = none ↔
      a ∉ nodeIds g ∨ b ∉ nodeIds g ∨ ∀ vs c, ¬PathCost g a b vs c := by
  constructor
  · intro h
    by_cases hab : a ∈ nodeIds g ∧ b ∈ nodeIds g
    · refine Or.inr (Or.inr ?_)
      unfold find_shortest_path at h
      rw [if_pos hab] at h
      have hpost := find_shortest_path_post g a b hclosed hab.1
      generalize hsp : dijkstra_loop g b ((nodeIds g).length * (edgeTotal g + 1) + 2)
          (fun v => if v = a then some 0 else none) (fun _ => none) [] [(0, a)] = s at h hpost
      obtain ⟨dist, prev⟩ := s
      have hpost2 : DijkPost g a b dist prev := hpost
      dsimp only at h
      rcases hdb : dist b with _ | d
      · exact hpost2.end_unreach hdb
      · rw [hdb] at h
        exact absurd h (by simp)
    · rcases not_and_or.mp hab with h1 | h1
      · exact Or.inl h1
      · exact Or.inr (Or.inl h1)
  · intro h
    rcases h with h1 | h1 | h1
    · unfold find_shortest_path
      rw [if_neg (fun hc => h1 hc.1)]
    · unfold find_shortest_path
      rw [if_neg (fun hc => h1 hc.2)]
    · by_cases hab : a ∈ nodeIds g ∧ b ∈ nodeIds g
      · unfold find_shortest_path
        rw [if_pos hab]
        have hpost := find_shortest_path_post g a b hclosed hab.1
        generalize hsp : dijkstra_loop g b ((nodeIds g).length * (edgeTotal g + 1) + 2)
            (fun v => if v = a then some 0 else none) (fun _ => none) [] [(0, a)] = s at hpost ⊢
        obtain ⟨dist, prev⟩ := s
        have hpost2 : DijkPost g a b dist prev := hpost
        dsimp only
        rcases hdb : dist b with _ | d
        · rfl
        · exfalso
          obtain ⟨vsx, hvs⟩ := hpost2.dist_sound b d hdb
          exact h1 vsx d hvs
      · unfold find_shortest_path
        rw [if_neg hab]

/-- C6: on a graph whose edge targets are nodes and whose weights are positive
(true of the metro network), `find_shortest_path a b` returns `none` exactly
when `a` or `b` is not a vertex or `b` is unreachable from `a`; otherwise it
returns a path from `a` to `b` of minimal total weight together with that
weight, and for any vertex `x` on the returned path the returned weight is at
least the sum of the weights returned for `(a, x)` and `(x, b)`. -/
theorem C6_find_shortest_path (g : MGraph) (a b : String)
    (hclosed : ClosedGraph g) (hpos : PositiveW g) :
    (find_shortest_path g a b = none ↔
      a ∉ nodeIds g ∨ b ∉ nodeIds g ∨ ∀ vs c, ¬PathCost g a b vs c) ∧
    (∀ vs w, find_shortest_path g a b = some (vs, w) →
      PathCost g a b vs w ∧ ∀ vs2 c, PathCost g a b vs2 c → w ≤ c) ∧
    (∀ vs w x vs1 w1 vs2 w2, find_shortest_path g a b = some (vs, w) → x ∈ vs →
      find_shortest_path g a x = some (vs1, w1) →
      find_shortest_path g x b = some (vs2, w2) → w1 + w2 ≤ w) := by
  refine ⟨find_shortest_path_none_iff hclosed,
    find_shortest_path_some_spec hclosed hpos, ?_⟩
  intro vs w x vs1 w1 vs2 w2 h hx h1 h2
  obtain ⟨hp, _⟩ := find_shortest_path_some_spec hclosed hpos vs w h
  obtain ⟨_, hmin1⟩ := find_shortest_path_some_spec hclosed hpos vs1 w1 h1
  obtain ⟨_, hmin2⟩ := find_shortest_path_some_spec hclosed hpos vs2 w2 h2
  obtain ⟨l1, c1, l2, c2, q1, q2, hsum⟩ := hp.split_at hx
  have t1 := hmin1 l1 c1 q1
  have t2 := hmin2 l2 c2 q2
  omega

/-- Witness for C6: a three-node network on which the hypotheses hold by
computation and the shortest a-to-c path is a-b-c with weight 5. -/
theorem C6_find_shortest_path_witness :
    ClosedGraph gC6lit ∧ PositiveW gC6lit ∧
    find_shortest_path gC6lit "a" "c" = some (["a", "b", "c"], 5) ∧
    ((find_shortest_path gC6lit "a" "c" = none ↔
      "a" ∉ nodeIds gC6lit ∨ "c" ∉ nodeIds gC6lit ∨
        ∀ vs c, ¬PathCost gC6lit "a" "c" vs c) ∧
     (∀ vs w, find_shortest_path gC6lit "a" "c" = some (vs, w) →
       PathCost gC6lit "a" "c" vs w ∧
         ∀ vs2 c, PathCost gC6lit "a" "c" vs2 c → w ≤ c) ∧
     (∀ vs w x vs1 w1 vs2 w2, find_shortest_path gC6lit "a" "c" = some (vs, w) →
       x ∈ vs → find_shortest_path gC6lit "a" x = some (vs1, w1) →
       find_shortest_path gC6lit x "c" = some (vs2, w2) → w1 + w2 ≤ w)) := by
  have hc : ClosedGraph gC6lit := closedGraph_of_entries (by decide)
  have hp : PositiveW gC6lit := positiveW_of_entries (by decide)
  exact ⟨hc, hp, by decide, C6_find_shortest_path gC6lit "a" "c" hc hp⟩
theorem combineDT_lb (t : Int) (e : Nat × Nat) : t - 86400 < combineDT t e := by
  unfold combineDT dayStart
  omega

theorem board_mono {db : MetroDB} {stations : String → Option Station}
    {terminals : MLine → Option (String × String)} {day : DayT} {path : List String}
    {i : Nat} {current : Int} {curLine : Option MLine} {dir : Option String}
    {ln : MLine} {cur2 : Int} {dir2 : Option String}
    (h : board db stations terminals day path i current curLine dir ln =
      Except.ok (cur2, dir2)) : current ≤ cur2 := by
  unfold board at h
  by_cases hcl : curLine = some ln
  · rw [if_pos hcl] at h
    obtain ⟨h1, h2⟩ := Prod.mk.inj (Except.ok.inj h)
    omega
  · rw [if_neg hcl] at h
    rcases hm : router_get_next_departures db (path.getD i "")
        (find_terminal_in_path stations path terminals i ln) day
        (hourOf current) (minuteOf current) 1 with _ | ⟨e0, rest⟩
    · rw [hm] at h
      exact absurd h (by simp)
    · rw [hm] at h
      dsimp only at h
      obtain ⟨h1, h2⟩ := Prod.mk.inj (Except.ok.inj h)
      have hlb := combineDT_lb current e0
      rw [← h1]
      split
      · omega
      · omega

theorem board_error_spec {db : MetroDB} {stations : String → Option Station}
    {terminals : MLine → Option (String × String)} {day : DayT} {path : List String}
    {i : Nat} {current : Int} {curLine : Option MLine} {dir : Option String}
    {ln : MLine} {e : RtErr}
    (h : board db stations terminals day path i current curLine dir ln =
      Except.error e) :
    e = RtErr.metroClosed ∧
      router_get_next_departures db (path.getD i "")
        (find_terminal_in_path stations path terminals i ln) day
        (hourOf current) (minuteOf current) 1 = [] := by
  unfold board at h
  by_cases hcl : curLine = some ln
  · rw [if_pos hcl] at h
    exact absurd h (by simp)
  · rw [if_neg hcl] at h
    rcases hm : router_get_next_departures db (path.getD i "")
        (find_terminal_in_path stations path terminals i ln) day
        (hourOf current) (minuteOf current) 1 with _ | ⟨e0, rest⟩
    · rw [hm] at h
      dsimp only at h
      exact ⟨(Except.error.inj h).symm, rfl⟩
    · rw [hm] at h
      dsimp only at h
      exact absurd h (by simp)

theorem calc_arrival_ge {db : MetroDB} {s dir : String} {day : DayT}
    {after arr : Int} (h : calc_arrival_time db s dir day after = some arr) :
    after ≤ arr := by
  unfold calc_arrival_time at h
  rcases hm : router_get_next_departures db s dir day (hourOf after) (minuteOf after) 1
    with _ | ⟨e, rest⟩
  · rw [hm] at h
    exact absurd h (by simp)
  · rw [hm] at h
    dsimp only at h
    have hlb := combineDT_lb after e
    have h2 := Option.some.inj h
    rw [← h2]
    split
    · omega
    · omega

theorem walk_succ_keyF {db : MetroDB} {stations : String → Option Station}
    {terminals : MLine → Option (String × String)} {day : DayT} {path : List String}
    {k i : Nat} {current : Int} {curLine : Option MLine} {dir : Option String}
    (hf : stations (path.getD i "") = none) :
    walk_segments db stations terminals day path (k + 1) i current curLine dir =
      Except.error RtErr.keyErr := by
  simp only [walk_segments, hf]

theorem walk_succ_keyT {db : MetroDB} {stations : String → Option Station}
    {terminals : MLine → Option (String × String)} {day : DayT} {path : List String}
    {k i : Nat} {current : Int} {curLine : Option MLine} {dir : Option String}
    {fromSt : Station}
    (hf : stations (path.getD i "") = some fromSt)
    (ht : stations (path.getD (i + 1) "") = none) :
    walk_segments db stations terminals day path (k + 1) i current curLine dir =
      Except.error RtErr.keyErr := by
  simp only [walk_segments, hf, ht]

theorem walk_succ_transfer {db : MetroDB} {stations : String → Option Station}
    {terminals : MLine → Option (String × String)} {day : DayT} {path : List String}
    {k i : Nat} {current : Int} {curLine : Option MLine} {dir : Option String}
    {fromSt toSt : Station}
    (hf : stations (path.getD i "") = some fromSt)
    (ht : stations (path.getD (i + 1) "") = some toSt)
    (htr : fromSt.transfer_to = some (path.getD (i + 1) "")) :
    walk_segments db stations terminals day path (k + 1) i current curLine dir =
      match walk_segments db stations terminals day path k (i + 1) (current + 180)
          none none with
      | Except.ok (segs, nt) =>
        Except.ok (⟨fromSt, toSt, current, current + 180, true, 3⟩ :: segs, nt + 1)
      | Except.error e => Except.error e := by
  simp only [walk_segments, hf, ht]
  rw [if_pos htr]

theorem walk_succ_train_err {db : MetroDB} {stations : String → Option Station}
    {terminals : MLine → Option (String × String)} {day : DayT} {path : List String}
    {k i : Nat} {current : Int} {curLine : Option MLine} {dir : Option String}
    {fromSt toSt : Station} {e : RtErr}
    (hf : stations (path.getD i "") = some fromSt)
    (ht : stations (path.getD (i + 1) "") = some toSt)
    (htr : ¬fromSt.transfer_to = some (path.getD (i + 1) ""))
    (hb : board db stations terminals day path i current curLine dir fromSt.line =
      Except.error e) :
    walk_segments db stations terminals day path (k + 1) i current curLine dir =
      Except.error e := by
  simp only [walk_segments, hf, ht]
  rw [if_neg htr, hb]

theorem walk_succ_train_some {db : MetroDB} {stations : String → Option Station}
    {terminals : MLine → Option (String × String)} {day : DayT} {path : List String}
    {k i : Nat} {current : Int} {curLine : Option MLine} {dir : Option String}
    {fromSt toSt : Station} {cur2 : Int} {dir2 : Option String} {arr : Int}
    (hf : stations (path.getD i "") = some fromSt)
    (ht : stations (path.getD (i + 1) "") = some toSt)
    (htr : ¬fromSt.transfer_to = some (path.getD (i + 1) ""))
    (hb : board db stations terminals day path i current curLine dir fromSt.line =
      Except.ok (cur2, dir2))
    (harr : (if dir2.getD "" = "" then none
             else calc_arrival_time db (path.getD (i + 1) "") (dir2.getD "") day cur2) =
        some arr) :
    walk_segments db stations terminals day path (k + 1) i current curLine dir =
      match walk_segments db stations terminals day path k (i + 1) arr
          (some fromSt.line) dir2 with
      | Except.ok (segs, nt) =>
        Except.ok (⟨fromSt, toSt, cur2, arr, false,
          (arr - cur2).toNat / 60⟩ :: segs, nt)
      | Except.error e => Except.error e := by
  simp only [walk_segments, hf, ht]
  rw [if_neg htr, hb]
  dsimp only
  rw [harr]

theorem walk_succ_train_none {db : MetroDB} {stations : String → Option Station}
    {terminals : MLine → Option (String × String)} {day : DayT} {path : List String}
    {k i : Nat} {current : Int} {curLine : Option MLine} {dir : Option String}
    {fromSt toSt : Station} {cur2 : Int} {dir2 : Option String}
    (hf : stations (path.getD i "") = some fromSt)
    (ht : stations (path.getD (i + 1) "") = some toSt)
    (htr : ¬fromSt.transfer_to = some (path.getD (i + 1) ""))
    (hb : board db stations terminals day path i current curLine dir fromSt.line =
      Except.ok (cur2, dir2))
    (harr : (if dir2.getD "" = "" then none
             else calc_arrival_time db (path.getD (i + 1) "") (dir2.getD "") day cur2) =
        none) :
    walk_segments db stations terminals day path (k + 1) i current curLine dir =
      match walk_segments db stations terminals day path k (i + 1) (cur2 + 120)
          (some fromSt.line) dir2 with
      | Except.ok (segs, nt) =>
        Except.ok (⟨fromSt, toSt, cur2, cur2 + 120, false, 2⟩ :: segs, nt)
      | Except.error e => Except.error e := by
  simp only [walk_segments, hf, ht]
  rw [if_neg htr, hb]
  dsimp only
  rw [harr]
theorem segchain_sum_le :
    ∀ (rest : List RouteSegment) (s0 : RouteSegment) (cur : Int),
      SegChain cur (s0 :: rest) →
      60 * (((s0 :: rest).map (fun s => s.duration_minutes)).sum : Int) ≤
        ((s0 :: rest).getLastD s0).arrival_time - s0.departure_time := by
  intro rest
  induction rest with
  | nil =>
    intro s0 cur h
    obtain ⟨h1, h2, h3⟩ := h
    simp only [List.map_cons, List.map_nil, List.sum_cons, List.sum_nil,
      List.getLastD_cons, List.getLastD_nil]
    omega
  | cons s1 rest ih =>
    intro s0 cur h
    obtain ⟨h1, h2, h3⟩ := h
    have hd : s0.arrival_time ≤ s1.departure_time := h3.1
    have hih := ih s1 s0.arrival_time h3
    rw [List.getLastD_cons, List.getLastD_cons]
    rw [List.getLastD_cons] at hih
    simp only [List.map_cons, List.sum_cons] at hih ⊢
    omega
theorem walk_segments_spec {db : MetroDB} {stations : String → Option Station}
    {terminals : MLine → Option (String × String)} {day : DayT} {path : List String}
    (Hids : ∀ sid st, stations sid = some st → st.id = sid)
    (Hpair : ∀ j, j + 1 < path.length → ∀ sa sb,
      stations (path.getD j "") = some sa →
      stations (path.getD (j + 1) "") = some sb →
      sa.transfer_to ≠ some (path.getD (j + 1) "") →
      sa.line = sb.line ∧ (sa.order + 1 = sb.order ∨ sb.order + 1 = sa.order)) :
    ∀ k i (cur : Int) curLine dir segs nt,
      i + k ≤ path.length - 1 →
      walk_segments db stations terminals day path k i cur curLine dir =
        Except.ok (segs, nt) →
      nt = segs.countP (fun s => s.is_transfer) ∧
      (∀ s ∈ segs, s.is_transfer = true →
        s.duration_minutes = 3 ∧ s.from_station.transfer_to = some s.to_station.id) ∧
      (∀ s ∈ segs, s.is_transfer = false →
        s.from_station.line = s.to_station.line ∧
          (s.from_station.order + 1 = s.to_station.order ∨
           s.to_station.order + 1 = s.from_station.order)) ∧
      SegChain cur segs := by
  intro k
  induction k with
  | zero =>
    intro i cur curLine dir segs nt hik hw
    simp only [walk_segments] at hw
    obtain ⟨h1, h2⟩ := Prod.mk.inj (Except.ok.inj hw)
    rw [← h1, ← h2]
    refine ⟨by simp, ?_, ?_, trivial⟩
    · intro s hs
      exact absurd hs (List.not_mem_nil s)
    · intro s hs
      exact absurd hs (List.not_mem_nil s)
  | succ k ih =>
    intro i cur curLine dir segs nt hik hw
    rcases hf : stations (path.getD i "") with _ | fromSt
    · rw [walk_succ_keyF hf] at hw
      exact absurd hw (by simp)
    rcases ht : stations (path.getD (i + 1) "") with _ | toSt
    · rw [walk_succ_keyT hf ht] at hw
      exact absurd hw (by simp)
    by_cases htr : fromSt.transfer_to = some (path.getD (i + 1) "")
    · rw [walk_succ_transfer hf ht htr] at hw
      rcases hrec : walk_segments db stations terminals day path k (i + 1) (cur + 180)
          none none with e | ⟨segs', nt'⟩
      · rw [hrec] at hw
        exact absurd hw (by simp)
      · rw [hrec] at hw
        dsimp only at hw
        obtain ⟨h1, h2⟩ := Prod.mk.inj (Except.ok.inj hw)
        obtain ⟨ih1, ih2, ih3, ih4⟩ :=
          ih (i + 1) (cur + 180) none none segs' nt' (by omega) hrec
        rw [← h1, ← h2]
        refine ⟨?_, ?_, ?_, ?_⟩
        · simp only [List.countP_cons]
          simp only [ih1]
          simp
        · intro s hs hstr
          rcases List.mem_cons.mp hs with rfl | hs'
          · refine ⟨rfl, ?_⟩
            show fromSt.transfer_to = some toSt.id
            rw [Hids (path.getD (i + 1) "") toSt ht]
            exact htr
          · exact ih2 s hs' hstr
        · intro s hs hstr
          rcases List.mem_cons.mp hs with rfl | hs'
          · simp at hstr
          · exact ih3 s hs' hstr
        · exact ⟨le_refl cur, by push_cast; omega, ih4⟩
    · rcases hb : board db stations terminals day path i cur curLine dir fromSt.line
        with e | ⟨cur2, dir2⟩
      · rw [walk_succ_train_err hf ht htr hb] at hw
        exact absurd hw (by simp)
      have hc2 := board_mono hb
      have hi1 : i + 1 < path.length := by omega
      rcases harr : (if dir2.getD "" = "" then none
          else calc_arrival_time db (path.getD (i + 1) "") (dir2.getD "") day cur2)
          with _ | arr
      · rw [walk_succ_train_none hf ht htr hb harr] at hw
        rcases hrec : walk_segments db stations terminals day path k (i + 1) (cur2 + 120)
            (some fromSt.line) dir2 with e | ⟨segs', nt'⟩
        · rw [hrec] at hw
          exact absurd hw (by simp)
        · rw [hrec] at hw
          dsimp only at hw
          obtain ⟨h1, h2⟩ := Prod.mk.inj (Except.ok.inj hw)
          obtain ⟨ih1, ih2, ih3, ih4⟩ :=
            ih (i + 1) (cur2 + 120) (some fromSt.line) dir2 segs' nt' (by omega) hrec
          rw [← h1, ← h2]
          refine ⟨?_, ?_, ?_, ?_⟩
          · simp only [List.countP_cons]
            simp only [ih1]
            simp
          · intro s hs hstr
            rcases List.mem_cons.mp hs with rfl | hs'
            · simp at hstr
            · exact ih2 s hs' hstr
          · intro s hs hstr
            rcases List.mem_cons.mp hs with rfl | hs'
            · exact Hpair i hi1 fromSt toSt hf ht htr
            · exact ih3 s hs' hstr
          · exact ⟨hc2, by push_cast; omega, ih4⟩
      · have harrge : cur2 ≤ arr := by
          by_cases hne : dir2.getD "" = ""
          · rw [if_pos hne] at harr
            exact absurd harr (by simp)
          · rw [if_neg hne] at harr
            exact calc_arrival_ge harr
        rw [walk_succ_train_some hf ht htr hb harr] at hw
        rcases hrec : walk_segments db stations terminals day path k (i + 1) arr
            (some fromSt.line) dir2 with e | ⟨segs', nt'⟩
        · rw [hrec] at hw
          exact absurd hw (by simp)
        · rw [hrec] at hw
          dsimp only at hw
          obtain ⟨h1, h2⟩ := Prod.mk.inj (Except.ok.inj hw)
          obtain ⟨ih1, ih2, ih3, ih4⟩ :=
            ih (i + 1) arr (some fromSt.line) dir2 segs' nt' (by omega) hrec
          rw [← h1, ← h2]
          refine ⟨?_, ?_, ?_, ?_⟩
          · simp only [List.countP_cons]
            simp only [ih1]
            simp
          · intro s hs hstr
            rcases List.mem_cons.mp hs with rfl | hs'
            · simp at hstr
            · exact ih2 s hs' hstr
          · intro s hs hstr
            rcases List.mem_cons.mp hs with rfl | hs'
            · exact Hpair i hi1 fromSt toSt hf ht htr
            · exact ih3 s hs' hstr
          · refine ⟨hc2, ?_, ih4⟩
            show 60 * (((arr - cur2).toNat / 60 : Nat) : Int) ≤ arr - cur2
            have hdv : ((arr - cur2).toNat / 60) * 60 ≤ (arr - cur2).toNat :=
              Nat.div_mul_le_self _ 60
            omega
theorem walk_err_spec {db : MetroDB} {stations : String → Option Station}
    {terminals : MLine → Option (String × String)} {day : DayT} {path : List String}
    (Htot : ∀ sid, stations sid ≠ none) :
    ∀ k i (cur : Int) curLine dir e,
      walk_segments db stations terminals day path k i cur curLine dir =
        Except.error e →
      e = RtErr.metroClosed ∧
        ∃ (j : Nat) (d : String) (c : Int), router_get_next_departures db (path.getD j "") d day
          (hourOf c) (minuteOf c) 1 = [] := by
  intro k
  induction k with
  | zero =>
    intro i cur curLine dir e hw
    simp only [walk_segments] at hw
    exact absurd hw (by simp)
  | succ k ih =>
    intro i cur curLine dir e hw
    rcases hf : stations (path.getD i "") with _ | fromSt
    · exact absurd hf (Htot _)
    rcases ht : stations (path.getD (i + 1) "") with _ | toSt
    · exact absurd ht (Htot _)
    by_cases htr : fromSt.transfer_to = some (path.getD (i + 1) "")
    · rw [walk_succ_transfer hf ht htr] at hw
      rcases hrec : walk_segments db stations terminals day path k (i + 1) (cur + 180)
          none none with e' | ⟨segs', nt'⟩
      · rw [hrec] at hw
        dsimp only at hw
        obtain rfl : e' = e := Except.error.inj hw
        exact ih (i + 1) (cur + 180) none none e' hrec
      · rw [hrec] at hw
        exact absurd hw (by simp)
    · rcases hb : board db stations terminals day path i cur curLine dir fromSt.line
        with e' | ⟨cur2, dir2⟩
      · rw [walk_succ_train_err hf ht htr hb] at hw
        obtain rfl : e' = e := Except.error.inj hw
        obtain ⟨he, hemp⟩ := board_error_spec hb
        exact ⟨he, i, _, cur, hemp⟩
      rcases harr : (if dir2.getD "" = "" then none
          else calc_arrival_time db (path.getD (i + 1) "") (dir2.getD "") day cur2)
          with _ | arr
      · rw [walk_succ_train_none hf ht htr hb harr] at hw
        rcases hrec : walk_segments db stations terminals day path k (i + 1) (cur2 + 120)
            (some fromSt.line) dir2 with e' | ⟨segs', nt'⟩
        · rw [hrec] at hw
          dsimp only at hw
          obtain rfl : e' = e := Except.error.inj hw
          exact ih (i + 1) (cur2 + 120) (some fromSt.line) dir2 e' hrec
        · rw [hrec] at hw
          exact absurd hw (by simp)
      · rw [walk_succ_train_some hf ht htr hb harr] at hw
        rcases hrec : walk_segments db stations terminals day path k (i + 1) arr
            (some fromSt.line) dir2 with e' | ⟨segs', nt'⟩
        · rw [hrec] at hw
          dsimp only at hw
          obtain rfl : e' = e := Except.error.inj hw
          exact ih (i + 1) arr (some fromSt.line) dir2 e' hrec
        · rw [hrec] at hw
          exact absurd hw (by simp)

theorem build_err_spec {db : MetroDB} {stations : String → Option Station}
    {terminals : MLine → Option (String × String)} {path : List String}
    {start : Int} {day : DayT}
    (Htot : ∀ sid, stations sid ≠ none) :
    ∀ e, build_route_with_schedule db stations terminals path start day =
      Except.error e → e = RtErr.metroClosed := by
  intro e h
  unfold build_route_with_schedule at h
  by_cases hop : openAt db day (secOfDay start) = false
  · rw [if_pos hop] at h
    exact (Except.error.inj h).symm
  · rw [if_neg hop] at h
    rcases hww : walk_segments db stations terminals day path (path.length - 1) 0 start
        none none with e' | ⟨segs, nt⟩
    · rw [hww] at h
      dsimp only at h
      obtain rfl : e' = e := Except.error.inj h
      exact (walk_err_spec Htot _ _ _ _ _ _ hww).1
    · rw [hww] at h
      dsimp only at h
      rcases segs with _ | ⟨s0, rest⟩
      · exact absurd h (by simp)
      · exact absurd h (by simp)

theorem find_route_err_spec {db : MetroDB} {stations : String → Option Station}
    {terminals : MLine → Option (String × String)} {g : MGraph}
    {fromId toId : String} {dep : Int} {day : DayT}
    (Htot : ∀ sid, stations sid ≠ none) :
    ∀ e, find_route db stations terminals g fromId toId dep day = Except.error e →
      e = RtErr.metroClosed := by
  intro e h
  unfold find_route at h
  rcases hp : find_shortest_path g fromId toId with _ | ⟨path, w⟩
  · rw [hp] at h
    exact absurd h (by simp)
  · rw [hp] at h
    dsimp only at h
    by_cases hop : openAt db day (secOfDay dep) = false
    · rw [if_pos hop] at h
      exact (Except.error.inj h).symm
    · rw [if_neg hop] at h
      rcases hb : build_route_with_schedule db stations terminals path dep day
          with e' | r
      · rw [hb] at h
        dsimp only at h
        obtain rfl : e' = e := Except.error.inj h
        exact build_err_spec Htot e' hb
      · rw [hb] at h
        dsimp only at h
        rcases har : r.arrival_time with _ | arr
        · rw [har] at h
          exact absurd h (by simp)
        · rw [har] at h
          dsimp only at h
          by_cases hop2 : openAt db day (secOfDay arr) = false
          · rw [if_pos hop2] at h
            exact (Except.error.inj h).symm
          · rw [if_neg hop2] at h
            exact absurd h (by simp)
/-- C2: corrected form of the route invariants of `_build_route_with_schedule`:
`num_transfers` counts the transfer segments; a transfer segment lasts 3
minutes and joins a transfer pair; a non-transfer segment joins adjacent
same-line stations when the path steps along well-formed graph edges
(hypothesis `Hpair`); and the per-segment durations sum to AT MOST the total
duration — waiting for the next departure at a boarding station widens the
departure-to-arrival span beyond the segment durations, so the spec's claimed
±1-minute equality fails (see the counterexample). -/
theorem C2_route_invariants (db : MetroDB) (stations : String → Option Station)
    (terminals : MLine → Option (String × String)) (path : List String)
    (start : Int) (day : DayT) (r : Route)
    (Hids : ∀ sid st, stations sid = some st → st.id = sid)
    (Hpair : ∀ j, j + 1 < path.length → ∀ sa sb,
      stations (path.getD j "") = some sa →
      stations (path.getD (j + 1) "") = some sb →
      sa.transfer_to ≠ some (path.getD (j + 1) "") →
      sa.line = sb.line ∧ (sa.order + 1 = sb.order ∨ sb.order + 1 = sa.order))
    (h : build_route_with_schedule db stations terminals path start day =
      Except.ok r) :
    r.num_transfers = r.segments.countP (fun s => s.is_transfer) ∧
    (∀ s ∈ r.segments, s.is_transfer = true →
      s.duration_minutes = 3 ∧ s.from_station.transfer_to = some s.to_station.id) ∧
    (∀ s ∈ r.segments, s.is_transfer = false →
      s.from_station.line = s.to_station.line ∧
        (s.from_station.order + 1 = s.to_station.order ∨
         s.to_station.order + 1 = s.from_station.order)) ∧
    (r.segments.map (fun s => s.duration_minutes)).sum ≤ r.total_duration_minutes := by
  unfold build_route_with_schedule at h
  by_cases hop : openAt db day (secOfDay start) = false
  · rw [if_pos hop] at h
    exact absurd h (by simp)
  · rw [if_neg hop] at h
    rcases hwalk : walk_segments db stations terminals day path (path.length - 1) 0 start
        none none with e | ⟨segs, nt⟩
    · rw [hwalk] at h
      exact absurd h (by simp)
    · rw [hwalk] at h
      dsimp only at h
      obtain ⟨hs1, hs2, hs3, hs4⟩ :=
        walk_segments_spec Hids Hpair (path.length - 1) 0 start none none segs nt
          (by omega) hwalk
      rcases segs with _ | ⟨s0, rest⟩
      · have hr := Except.ok.inj h
        rw [← hr]
        refine ⟨hs1, ?_, ?_, by simp⟩
        · intro s hs
          exact absurd hs (List.not_mem_nil s)
        · intro s hs
          exact absurd hs (List.not_mem_nil s)
      · have hr := Except.ok.inj h
        rw [← hr]
        refine ⟨hs1, hs2, hs3, ?_⟩
        have hchain := segchain_sum_le rest s0 start hs4
        show ((s0 :: rest).map (fun s => s.duration_minutes)).sum ≤
          (((s0 :: rest).getLastD s0).arrival_time - s0.departure_time).toNat / 60
        rw [Nat.le_div_iff_mul_le (by norm_num : (0 : Nat) < 60)]
        have hcast : ((((s0 :: rest).map (fun s => s.duration_minutes)).sum : Nat) : Int) =
            ((s0 :: rest).map (fun s => (s.duration_minutes : Int))).sum := by
          simp [Nat.cast_list_sum, List.map_map]
          rfl
        omega
/-- Counterexample to C2's ±1-minute totals claim: departing a at 10:00, the
walk transfers a-b (10:00-10:03), waits for the 10:10 train and arrives at c
at 10:12; the segment durations sum to 5 minutes while the route total is 12
minutes — the 7-minute wait at b is in no segment. -/
theorem C2_counterexample :
    ∃ r, build_route_with_schedule dbC2 stationsC2 terminalsC2 ["a", "b", "c"] 36000
        DayT.weekday = Except.ok r ∧
      r.total_duration_minutes = 12 ∧
      (r.segments.map (fun s => s.duration_minutes)).sum = 5 := by
  refine ⟨⟨[⟨stA, stB, 36000, 36180, true, 3⟩, ⟨stB, stC, 36600, 36720, false, 2⟩],
    12, 1, some 36000, some 36720⟩, by rfl, rfl, rfl⟩

/-- Witness for C2 on the concrete three-station network: the hypotheses hold
and the invariants follow for the route built at 10:00. -/
theorem C2_route_invariants_witness :
    ∃ r, build_route_with_schedule dbC2 stationsC2 terminalsC2 ["a", "b", "c"] 36000
        DayT.weekday = Except.ok r ∧
      (r.num_transfers = r.segments.countP (fun s => s.is_transfer) ∧
       (∀ s ∈ r.segments, s.is_transfer = true →
         s.duration_minutes = 3 ∧ s.from_station.transfer_to = some s.to_station.id) ∧
       (∀ s ∈ r.segments, s.is_transfer = false →
         s.from_station.line = s.to_station.line ∧
           (s.from_station.order + 1 = s.to_station.order ∨
            s.to_station.order + 1 = s.from_station.order)) ∧
       (r.segments.map (fun s => s.duration_minutes)).sum ≤ r.total_duration_minutes) := by
  have hids : ∀ sid st, stationsC2 sid = some st → st.id = sid := by
    intro sid st h
    unfold stationsC2 at h
    split_ifs at h with h1 h2 h3
    · rw [← Option.some.inj h, h1]
      rfl
    · rw [← Option.some.inj h, h2]
      rfl
    · rw [← Option.some.inj h, h3]
      rfl
  have hpair : ∀ j, j + 1 < (["a", "b", "c"] : List String).length → ∀ sa sb,
      stationsC2 ((["a", "b", "c"] : List String).getD j "") = some sa →
      stationsC2 ((["a", "b", "c"] : List String).getD (j + 1) "") = some sb →
      sa.transfer_to ≠ some ((["a", "b", "c"] : List String).getD (j + 1) "") →
      sa.line = sb.line ∧ (sa.order + 1 = sb.order ∨ sb.order + 1 = sa.order) := by
    intro j hj sa sb h1 h2 h3
    simp only [List.length_cons, List.length_nil] at hj
    have hj2 : j = 0 ∨ j = 1 := by omega
    rcases hj2 with rfl | rfl
    · have hsa : stA = sa := Option.some.inj h1
      exact absurd (by rw [← hsa]; rfl) h3
    · have hsa : stB = sa := Option.some.inj h1
      have hsb : stC = sb := Option.some.inj h2
      rw [← hsa, ← hsb]
      exact ⟨rfl, Or.inl rfl⟩
  refine ⟨⟨[⟨stA, stB, 36000, 36180, true, 3⟩, ⟨stB, stC, 36600, 36720, false, 2⟩],
    12, 1, some 36000, some 36720⟩, by rfl, ?_⟩
  exact C2_route_invariants dbC2 stationsC2 terminalsC2 ["a", "b", "c"] 36000
    DayT.weekday _ hids hpair (by rfl)
/-- C1, corrected: over the depart-at branch of `find_route` (with every
station id resolvable), MetroClosed is the only raised error, and when a path
exists it is raised exactly for a closed desired departure, a failing walk
(whose only failure is an empty next-departure lookup at a boarding station),
or a built route whose final arrival falls outside open hours.  When the graph
has NO path, however, `find_route` returns `None` before any open-hours check
— even at a time when the metro is closed — contradicting the claim's
"raises exactly when service is unavailable" (see the counterexample). -/
theorem C1_find_route_closed (db : MetroDB) (stations : String → Option Station)
    (terminals : MLine → Option (String × String)) (g : MGraph)
    (fromId toId : String) (dep : Int) (day : DayT)
    (Htot : ∀ sid, stations sid ≠ none) :
    (find_shortest_path g fromId toId = none →
      find_route db stations terminals g fromId toId dep day = Except.ok none) ∧
    (∀ e, find_route db stations terminals g fromId toId dep day = Except.error e →
      e = RtErr.metroClosed) ∧
    (∀ path w, find_shortest_path g fromId toId = some (path, w) →
      (find_route db stations terminals g fromId toId dep day =
          Except.error RtErr.metroClosed ↔
        openAt db day (secOfDay dep) = false ∨
        walk_segments db stations terminals day path (path.length - 1) 0 dep
          none none = Except.error RtErr.metroClosed ∨
        (∃ r arr, build_route_with_schedule db stations terminals path dep day =
            Except.ok r ∧ r.arrival_time = some arr ∧
          openAt db day (secOfDay arr) = false))) ∧
    (∀ path w, find_shortest_path g fromId toId = some (path, w) →
      find_route db stations terminals g fromId toId dep day =
        Except.error RtErr.metroClosed ∨
      ∃ r, find_route db stations terminals g fromId toId dep day =
        Except.ok (some r)) ∧
    (∀ (path : List String) k i (cur : Int) curLine dir,
      walk_segments db stations terminals day path k i cur curLine dir =
        Except.error RtErr.metroClosed →
      ∃ (j : Nat) (d : String) (c : Int),
        router_get_next_departures db (path.getD j "") d day
          (hourOf c) (minuteOf c) 1 = []) := by
  refine ⟨?_, fun e h => find_route_err_spec Htot e h, ?_, ?_, ?_⟩
  · intro h
    unfold find_route
    rw [h]
  · intro path w hp
    constructor
    · intro h
      unfold find_route at h
      rw [hp] at h
      dsimp only at h
      by_cases hop : openAt db day (secOfDay dep) = false
      · exact Or.inl hop
      · rw [if_neg hop] at h
        rcases hb : build_route_with_schedule db stations terminals path dep day
            with e' | r
        · rw [hb] at h
          dsimp only at h
          have he : e' = RtErr.metroClosed := Except.error.inj h
          unfold build_route_with_schedule at hb
          rw [if_neg hop] at hb
          rcases hww : walk_segments db stations terminals day path (path.length - 1) 0
              dep none none with e'' | ⟨segs, nt⟩
          · rw [hww] at hb
            dsimp only at hb
            have h2 : e'' = e' := Except.error.inj hb
            exact Or.inr (Or.inl (by rw [h2, he]))
          · rw [hww] at hb
            dsimp only at hb
            rcases segs with _ | ⟨s0, rest⟩
            · exact absurd hb (by simp)
            · exact absurd hb (by simp)
        · rw [hb] at h
          dsimp only at h
          rcases har : r.arrival_time with _ | arr
          · rw [har] at h
            exact absurd h (by simp)
          · rw [har] at h
            dsimp only at h
            by_cases hop2 : openAt db day (secOfDay arr) = false
            · exact Or.inr (Or.inr ⟨r, arr, rfl, har, hop2⟩)
            · rw [if_neg hop2] at h
              exact absurd h (by simp)
    · intro h
      unfold find_route
      rw [hp]
      dsimp only
      rcases h with hop | hwk | ⟨r, arr, hb, har, hop2⟩
      · rw [if_pos hop]
      · by_cases hop : openAt db day (secOfDay dep) = false
        · rw [if_pos hop]
        · rw [if_neg hop]
          have hb : build_route_with_schedule db stations terminals path dep day =
              Except.error RtErr.metroClosed := by
            unfold build_route_with_schedule
            rw [if_neg hop, hwk]
          rw [hb]
      · by_cases hop : openAt db day (secOfDay dep) = false
        · rw [if_pos hop]
        · rw [if_neg hop, hb]
          dsimp only
          rw [har]
          dsimp only
          rw [if_pos hop2]
  · intro path w hp
    unfold find_route
    rw [hp]
    dsimp only
    by_cases hop : openAt db day (secOfDay dep) = false
    · rw [if_pos hop]
      exact Or.inl rfl
    · rw [if_neg hop]
      rcases hb : build_route_with_schedule db stations terminals path dep day
          with e' | r
      · have he := build_err_spec Htot e' hb
        rw [he]
        exact Or.inl rfl
      · dsimp only
        rcases har : r.arrival_time with _ | arr
        · exact Or.inr ⟨r, rfl⟩
        · dsimp only
          by_cases hop2 : openAt db day (secOfDay arr) = false
          · rw [if_pos hop2]
            exact Or.inl rfl
          · rw [if_neg hop2]
            exact Or.inr ⟨r, rfl⟩
  · intro path k i cur curLine dir h
    exact (walk_err_spec Htot k i cur curLine dir RtErr.metroClosed h).2
/-- Counterexample to C1's "raises exactly when service is unavailable": at
03:00 the metro is closed, yet with no path between the endpoints `find_route`
returns `None` without raising MetroClosed — the no-path early return comes
before any open-hours check. -/
theorem C1_counterexample :
    openAt dbC1 DayT.weekday (secOfDay 10800) = false ∧
    find_route dbC1 (fun _ => none) (fun _ => none) [] "x" "y" 10800 DayT.weekday =
      Except.ok none :=
  ⟨by decide, by rfl⟩

/-- Witness for C1: with a total stations dict, a present path a-b-c and an
open 10:00 departure, the empty boarding lookup makes `find_route` raise
MetroClosed, and the only raisable error is MetroClosed. -/
theorem C1_find_route_closed_witness :
    (∀ sid, stationsTot sid ≠ none) ∧
    find_route dbC1 stationsTot (fun _ => none) gC6lit "a" "c" 36000 DayT.weekday =
      Except.error RtErr.metroClosed ∧
    (∀ e, find_route dbC1 stationsTot (fun _ => none) gC6lit "a" "c" 36000
        DayT.weekday = Except.error e → e = RtErr.metroClosed) := by
  have htot : ∀ sid, stationsTot sid ≠ none := by
    intro sid h
    exact Option.noConfusion h
  exact ⟨htot, by rfl,
    (C1_find_route_closed dbC1 stationsTot (fun _ => none) gC6lit "a" "c" 36000
      DayT.weekday htot).2.1⟩
